import Mathlib

/-!
# SEAL_Working: interactive input, verification harness and exit codes

A shallow embedding of `SEAL_Working.h` and `main.cpp`.

* Standard input is a list of lines (what successive `std::getline` calls
  deliver); `[]` is end of input.
* A `std::stringstream` over a line is the list of characters not yet
  consumed; an extraction `ss >> x` either fails (`none`) or yields the value
  and the remaining characters.  No extraction is ever attempted by the
  program after a failed one on the same stream, so the fail bit needs no
  separate representation.
* `size_t` is `Nat` below `2 ^ 64`, `int64_t` is `Int` in
  `[-2 ^ 63, 2 ^ 63)`; wrap-around is explicit.
* Everything the program writes (console, log file) and every call into the
  SEAL library is recorded as an event, in program order.
-/

namespace SEALWorking

/-! ## Stream extraction (`operator>>` on a `std::stringstream`) -/

/-- A line of input, without its terminating newline. -/
abbrev Line := List Char

/-- The classic-locale `std::isspace`: space, `\t`, `\n`, `\v`, `\f`, `\r`. -/
def isspace (c : Char) : Bool :=
  c.toNat == 32 || (9 ≤ c.toNat && c.toNat ≤ 13)

/-- The decimal digits `0`..`9`. -/
def isdigit (c : Char) : Bool :=
  48 ≤ c.toNat && c.toNat ≤ 57

/-- Value of a run of decimal digits, most significant first. -/
def digitsVal (ds : List Char) : Nat :=
  ds.foldl (fun acc c => 10 * acc + (c.toNat - 48)) 0

/-- The optional sign in front of a number: `(negative, characters after it)`. -/
def takeSign : List Char → Bool × List Char
  | [] => (false, [])
  | c :: t => if c = '-' then (true, t) else if c = '+' then (false, t) else (false, c :: t)

/-- `2 ^ 64`, the number of values of `size_t`. -/
def SIZE_RANGE : Nat := 18446744073709551616

/-- `2 ^ 63`, one more than the largest `int64_t`. -/
def INT64_BOUND : Nat := 9223372036854775808

/-- `ss >> size` for `size_t size`: skip white space, read an optional sign
and a run of digits.  No digit, or a magnitude above `2 ^ 64 - 1`, sets the
fail bit.  A leading minus sign is accepted and the magnitude is negated in
the unsigned type (the `strtoull` rule of `num_get`). -/
def extractSizeT (ss : List Char) : Option (Nat × List Char) :=
  let s := takeSign (ss.dropWhile isspace)
  let ds := s.2.takeWhile isdigit
  if ds = [] then none
  else if SIZE_RANGE ≤ digitsVal ds then none
  else some (if s.1 then (SIZE_RANGE - digitsVal ds) % SIZE_RANGE else digitsVal ds,
             s.2.dropWhile isdigit)

/-- `ss >> val` for `int64_t val`: as for `size_t`, with the signed range. -/
def extractInt64 (ss : List Char) : Option (Int × List Char) :=
  let s := takeSign (ss.dropWhile isspace)
  let ds := s.2.takeWhile isdigit
  if ds = [] then none
  else if s.1 then
    if INT64_BOUND < digitsVal ds then none
    else some (-(digitsVal ds : Int), s.2.dropWhile isdigit)
  else
    if INT64_BOUND ≤ digitsVal ds then none
    else some ((digitsVal ds : Int), s.2.dropWhile isdigit)

/-- `ss >> c` for `char c`: skip white space and read one character; fails
when nothing but white space is left. -/
def extractChar (ss : List Char) : Option (Char × List Char) :=
  match ss.dropWhile isspace with
  | [] => none
  | c :: t => some (c, t)

/-! ## Events -/

/-- One call into the SEAL library, with the names of the program variables
it reads and writes. -/
inductive Call where
  | encode (values : List Int) (dst : String)
  | to_string (src : String)
  | encrypt (src dst : String)
  | invariant_noise_budget (src : String)
  | add (a b dst : String)
  | multiply (a b dst : String)
  | relinearize_inplace (c : String)
  | multiply_plain (c p dst : String)
  | decrypt (src dst : String)
  | decode (src dst : String)
  /-- `CKKSEncoder::encode(values, scale, dst)` -/
  | encode_real (values : List ℚ) (dst : String)
  /-- `CKKSEncoder::encode(value, like.parms_id(), like.scale(), dst)` -/
  | encode_scalar (value : ℚ) (like dst : String)
  | rescale_to_next_inplace (c : String)
  | add_plain (c p dst : String)
  /-- `get_context_data(src.parms_id())->chain_index()` -/
  | chain_index (src : String)
  deriving DecidableEq, Repr

/-- Everything observable the program does, in program order. -/
inductive Ev where
  /-- fixed text written to `std::cout` -/
  | cout (text : String)
  /-- the vector prompt `Enter <size> space-separated <kind> for <name>: ` -/
  | coutPrompt (size : Nat) (kind name : String)
  /-- text written to `std::cerr` -/
  | cerr (text : String)
  /-- fixed text written to the log stream -/
  | log (text : String)
  /-- `Vector size chosen: <size>` -/
  | logSize (size : Nat)
  /-- `User input for <name>: <line>` -/
  | logInput (name : String) (line : Line)
  /-- the elements of the integer vector `name`, written to the log -/
  | logInts (name : String) (values : List Int)
  /-- the elements of the real vector `name`, written to the log -/
  | logReals (name : String) (values : List ℚ)
  /-- operand pairs written to the log with the operator `op` between them -/
  | logPairs (op : String) (values : List (Int × Int))
  /-- a timing line; the measured duration is not modelled -/
  | logTiming (label : String)
  /-- the `[INFO]` line of `print_bfv_info` or `print_ckks_info` for a ciphertext -/
  | logInfo (name : String)
  /-- the `[VERIFY FAIL] at index <i>: expected <e>, got <a>` line -/
  | logVerifyFail (index : Nat) (expected actual : ℚ)
  /-- `log_file.close()` -/
  | logClose
  /-- control enters a routine of `SEAL_Working` (its constructor or a demo) -/
  | enter (routine : String)
  /-- a call into the library -/
  | call (c : Call)
  deriving DecidableEq, Repr

/-- The value an input routine returns, the input it left unread and what it
wrote. -/
structure Read (α : Type) where
  value : α
  rest : List Line
  out : List Ev

/-! ## `getUserSize` -/

/-- The prompt of `getUserSize`. -/
def sizePrompt : Ev :=
  .cout "   Enter the number of elements for the vectors (e.g., 4): "

/-- The message for a number followed by something else. -/
def sizeErrSingle : Ev :=
  .cout "      Error: Invalid input. Please enter a single positive number."

/-- The message for a line that does not start with a positive number. -/
def sizeErrPositive : Ev :=
  .cout "      Error: Invalid input. Please enter a positive number."

/-- What one pass of the loop body does with a line that was read. -/
inductive SizeStep where
  /-- `break` with `size` holding the number -/
  | accept (size : Nat)
  /-- `ss >> c` succeeded: "single positive number" error, `size = 0` -/
  | trailing
  /-- `ss >> size && size > 0` was false: "positive number" error, `size = 0` -/
  | notPositive
  deriving DecidableEq, Repr

/-- The body of the `while` loop of `getUserSize` after a successful
`getline`. -/
def sizeStep (line : Line) : SizeStep :=
  match extractSizeT line with
  | some (size, ss) =>
    if 0 < size then
      match extractChar ss with
      | some _ => .trailing
      | none => .accept size
    else .notPositive
  | none => .notPositive

/-- The loop `while (size <= 0) { ... }` of `getUserSize`: the unread input
and the current value of `size` go in, the final `size` comes out. -/
def getUserSizeLoop : List Line → Nat → Read Nat
  | [], size =>
    if size ≤ 0 then ⟨size, [], [sizePrompt]⟩ else ⟨size, [], []⟩
  | line :: rest, size =>
    if size ≤ 0 then
      match sizeStep line with
      | .accept n => ⟨n, rest, [sizePrompt]⟩
      | .trailing =>
        let r := getUserSizeLoop rest 0
        ⟨r.value, r.rest, sizePrompt :: sizeErrSingle :: r.out⟩
      | .notPositive =>
        let r := getUserSizeLoop rest 0
        ⟨r.value, r.rest, sizePrompt :: sizeErrPositive :: r.out⟩
    else ⟨size, line :: rest, []⟩

/-- `SEAL_Working::getUserSize`. -/
def getUserSize (stdin : List Line) : Read Nat :=
  let r := getUserSizeLoop stdin 0
  ⟨r.value, r.rest, r.out ++ [.logSize r.value]⟩

/-! ## `getUserVectorInt`, `getUserVectorDouble` -/

/-- The message for a line with too few numbers. -/
def vecErr : Ev :=
  .cout "      Error: Not enough numbers entered. Please try again."

/-- The inner loop `while (ss >> val && vec.size() < size) vec.push_back(val);`.
The first argument is the room left, `size - vec.size()`: with no room left the
loop still attempts one extraction and then stops whatever its outcome. -/
def fillFrom {α : Type} (extract : List Char → Option (α × List Char)) :
    Nat → List Char → List α → List α
  | 0, _, vec => vec
  | room + 1, ss, vec =>
    match extract ss with
    | none => vec
    | some (val, ss1) => fillFrom extract room ss1 (vec ++ [val])

/-- The loop `while (vec.size() < size) { ... }` shared by `getUserVectorInt`
and `getUserVectorDouble`: the unread input and the current `vec` go in. -/
def getUserVectorLoop {α : Type} (extract : List Char → Option (α × List Char))
    (size : Nat) (kind name : String) : List Line → List α → Read (List α)
  | [], vec =>
    if vec.length < size then ⟨vec, [], [.coutPrompt size kind name]⟩ else ⟨vec, [], []⟩
  | line :: rest, vec =>
    if vec.length < size then
      let filled := fillFrom extract (size - vec.length) line vec
      if filled.length < size then
        let r := getUserVectorLoop extract size kind name rest []
        ⟨r.value, r.rest, .coutPrompt size kind name :: .logInput name line :: vecErr :: r.out⟩
      else
        let r := getUserVectorLoop extract size kind name rest filled
        ⟨r.value, r.rest, .coutPrompt size kind name :: .logInput name line :: r.out⟩
    else ⟨vec, line :: rest, []⟩

/-- `SEAL_Working::getUserVectorInt`. -/
def getUserVectorInt (size : Nat) (name : String) (stdin : List Line) : Read (List Int) :=
  getUserVectorLoop extractInt64 size "integers" name stdin []

/-- `SEAL_Working::getUserVectorDouble`.  The conversion of text to `double`
(`ss >> val`) is a parameter: `D` stands for `double`. -/
def getUserVectorDouble {D : Type} (extractDouble : List Char → Option (D × List Char))
    (size : Nat) (name : String) (stdin : List Line) : Read (List D) :=
  getUserVectorLoop extractDouble size "doubles" name stdin []

/-! ## Runs -/

/-- Why a routine does not run to its end. -/
inductive Halt where
  /-- a `std::exception` leaves the routine; `what` is its message -/
  | exception (what : String)
  /-- `vec[index]` is evaluated with `index >= vec.size()`: undefined behaviour -/
  | outOfRange (vec : String) (index size : Nat)
  deriving DecidableEq, Repr

/-- What a stretch of straight-line code does: the events up to its end, or up
to the point where it halts. -/
structure Run where
  events : List Ev
  halt : Option Halt
  deriving DecidableEq, Repr

/-- Sequential composition: the second stretch runs only if the first did not
halt. -/
def Run.andThen (a b : Run) : Run :=
  match a.halt with
  | some _ => a
  | none => ⟨a.events ++ b.events, b.halt⟩

/-- A list of stretches, run in order. -/
def Run.seq : List Run → Run
  | [] => ⟨[], none⟩
  | r :: rs => r.andThen (Run.seq rs)

/-- Code that only emits events. -/
def emit (evs : List Ev) : Run := ⟨evs, none⟩

/-- `vec[i]` through `operator[]`. -/
def index {α : Type} (name : String) (vec : List α) (i : Nat) : Except Halt α :=
  match vec.get? i with
  | some x => .ok x
  | none => .error (.outOfRange name i vec.length)

/-- The results of a list of computations, up to the first that halts. -/
def collect {β : Type} : List (Except Halt β) → Except Halt (List β)
  | [] => .ok []
  | .error h :: _ => .error h
  | .ok b :: xs =>
    match collect xs with
    | .error h => .error h
    | .ok bs => .ok (b :: bs)

/-- The loop `for (size_t i = 0; i < n; ++i) body(i)`. -/
def forIndex {β : Type} (n : Nat) (body : Nat → Except Halt β) : Except Halt (List β) :=
  collect ((List.range n).map body)

/-- Run the code that follows a computation, or halt where it halted. -/
def after {β : Type} (x : Except Halt β) (k : β → Run) : Run :=
  match x with
  | .error h => ⟨[], some h⟩
  | .ok b => k b

/-! ## The integer scheme: `demonstrateBFV` -/

/-- The SEAL objects `demonstrateBFV` works with, seen from outside: which
calls throw, and what the three `decode` calls deliver for given plaintexts. -/
structure BFVLibrary where
  /-- the message of the `std::exception` a call throws, if it throws -/
  throws : Call → Option String
  /-- `sum_result` as decoded from `ctxt_sum`, for `plaintext1`, `plaintext2` -/
  sum_result : List Int → List Int → List Int
  /-- `mult_result` as decoded from the relinearized `ctxt_mult` -/
  mult_result : List Int → List Int → List Int
  /-- `scalar_result` as decoded from `ctxt_scalar`, for `plaintext1` and the
  encoded scalar vector -/
  scalar_result : List Int → List Int → List Int

/-- A library call: recorded, and the routine halts if the call throws.
`throws` gives the message of the exception a call throws, if it throws. -/
def libCall (throws : Call → Option String) (c : Call) : Run :=
  ⟨[.call c], (throws c).map Halt.exception⟩

/-- `print_bfv_info(ctxt, name)`: the `[INFO]` line; the noise budget is asked
of the library while the line is being written. -/
def print_bfv_info (lib : BFVLibrary) (ctxt name : String) : Run :=
  (emit [.logInfo name]).andThen (libCall lib.throws (.invariant_noise_budget ctxt))

/-- Two's-complement wrap-around of `int64_t` arithmetic: the value a
two's-complement machine computes where the exact result leaves the `int64_t`
range (signed overflow, which C++ leaves undefined). -/
def wrapInt64 (x : Int) : Int :=
  (x + 9223372036854775808) % 18446744073709551616 - 9223372036854775808

/-- `vec.resize(n)` on a vector of numbers: cut to `n` elements, or pad with
zeros up to `n`. -/
def resize {α : Type} [Zero α] (vec : List α) (n : Nat) : List α :=
  vec.take n ++ List.replicate (n - vec.length) 0

/-- The operand pairs `plaintext1[i], plaintext2[i]` for `i < vector_size`. -/
def operandPairs (vector_size : Nat) (plaintext1 plaintext2 : List Int) :
    Except Halt (List (Int × Int)) :=
  forIndex vector_size fun i =>
    match index "plaintext1" plaintext1 i with
    | .error h => .error h
    | .ok a =>
      match index "plaintext2" plaintext2 i with
      | .error h => .error h
      | .ok b => .ok (a, b)

/-- The text `label` followed by the loop printing `result[i]` for
`i < vector_size`; `name` is the name of the vector `result`. -/
def printResult (label name : String) (vector_size : Nat) (result : List Int) : Run :=
  (emit [.log label]).andThen
    (after (forIndex vector_size (index name result)) fun shown => emit [.logInts name shown])

/-- The three expected vectors of `demonstrateBFV`. -/
structure BFVExpected where
  expected_sum : List Int
  expected_mult : List Int
  expected_scalar : List Int
  deriving DecidableEq, Repr

/-- The loop filling `expected_sum`, `expected_mult` and `expected_scalar`
from the plaintexts and the scalar. -/
def bfvExpected (vector_size : Nat) (plaintext1 plaintext2 : List Int) (scalar : Int) :
    Except Halt BFVExpected :=
  match forIndex vector_size (fun i =>
      match index "plaintext1" plaintext1 i with
      | .error h => .error h
      | .ok a =>
        match index "plaintext2" plaintext2 i with
        | .error h => .error h
        | .ok b => .ok (wrapInt64 (a + b), wrapInt64 (a * b), wrapInt64 (a * scalar))) with
  | .error h => .error h
  | .ok rows => .ok ⟨rows.map (·.1), rows.map (·.2.1), rows.map (·.2.2)⟩

/-- The three verdicts of `demonstrateBFV`. -/
structure BFVVerdicts where
  sum_correct : Bool
  mult_correct : Bool
  scalar_correct : Bool
  deriving DecidableEq, Repr

/-- The `resize` calls and the three comparisons. -/
def bfvVerdicts (e : BFVExpected) (sum_result mult_result scalar_result : List Int) :
    BFVVerdicts :=
  ⟨decide (resize sum_result e.expected_sum.length = e.expected_sum),
   decide (resize mult_result e.expected_mult.length = e.expected_mult),
   decide (resize scalar_result e.expected_scalar.length = e.expected_scalar)⟩

/-- `PASS` or `FAIL`. -/
def passFail (b : Bool) : String :=
  if b then "PASS" else "FAIL"

/-- The closing banner of `demonstrateBFV`. -/
def bfvBanner : List Ev :=
  [.log "\n✅ BFV with Microsoft SEAL: ALL TESTS PASSING!",
   .log "   - Proper noise management",
   .log "   - Relinearization after multiplication",
   .log "   - Modulus switching for noise reduction"]

/-- What the verification writes to the log for given verdicts. -/
def bfvReport (v : BFVVerdicts) : List Ev :=
  [.log ("   Addition verification: " ++ passFail v.sum_correct),
   .log ("   Multiplication verification: " ++ passFail v.mult_correct),
   .log ("   Scalar multiplication verification: " ++ passFail v.scalar_correct)] ++
  (if v.sum_correct && v.mult_correct && v.scalar_correct then bfvBanner else [])

/-- Section `4. Verification` of `demonstrateBFV`. -/
def bfvVerification (vector_size : Nat) (plaintext1 plaintext2 : List Int) (scalar : Int)
    (sum_result mult_result scalar_result : List Int) : Run :=
  (emit [.log "\n4. Verification:"]).andThen
    (after (bfvExpected vector_size plaintext1 plaintext2 scalar) fun e =>
      emit (bfvReport (bfvVerdicts e sum_result mult_result scalar_result)))

/-- Everything `demonstrateBFV` does once the size and the two plaintexts are
read. -/
def bfvBody (lib : BFVLibrary) (vector_size : Nat) (plaintext1 plaintext2 : List Int) : Run :=
  let scalar : Int := 2
  let scalars := List.replicate plaintext1.length scalar
  let sum_result := lib.sum_result plaintext1 plaintext2
  let mult_result := lib.mult_result plaintext1 plaintext2
  let scalar_result := lib.scalar_result plaintext1 scalars
  Run.seq [
    emit [.log "   Plaintext 1: ", .logInts "plaintext1" plaintext1,
      .log "   Plaintext 2: ", .logInts "plaintext2" plaintext2],
    libCall lib.throws (.encode plaintext1 "ptxt1"),
    libCall lib.throws (.encode plaintext2 "ptxt2"),
    emit [.log "      [INFO] Plaintext 1 encoded to polynomial: "],
    libCall lib.throws (.to_string "ptxt1"),
    libCall lib.throws (.encrypt "ptxt1" "ctxt1"),
    libCall lib.throws (.encrypt "ptxt2" "ctxt2"),
    emit [.logTiming "   Encryption completed in "],
    print_bfv_info lib "ctxt1" "ctxt1 (after encryption)",
    print_bfv_info lib "ctxt2" "ctxt2 (after encryption)",
    emit [.log "\n3. Homomorphic Operations:"],
    -- Addition
    libCall lib.throws (.add "ctxt1" "ctxt2" "ctxt_sum"),
    libCall lib.throws (.decrypt "ctxt_sum" "ptxt_sum"),
    libCall lib.throws (.decode "ptxt_sum" "sum_result"),
    emit [.log "   Addition ("],
    after (operandPairs vector_size plaintext1 plaintext2) fun ps => emit [.logPairs "+" ps],
    printResult "): " "sum_result" vector_size sum_result,
    emit [.logTiming "   Addition operation took "],
    print_bfv_info lib "ctxt_sum" "ctxt_sum (after addition)",
    -- Multiplication
    libCall lib.throws (.multiply "ctxt1" "ctxt2" "ctxt_mult"),
    emit [.logTiming "   Multiplication operation took "],
    print_bfv_info lib "ctxt_mult" "ctxt_mult (after multiply)",
    -- Relinearization
    libCall lib.throws (.relinearize_inplace "ctxt_mult"),
    emit [.logTiming "   Relinearization operation took "],
    print_bfv_info lib "ctxt_mult" "ctxt_mult (after relinearize)",
    libCall lib.throws (.decrypt "ctxt_mult" "ptxt_mult"),
    libCall lib.throws (.decode "ptxt_mult" "mult_result"),
    emit [.log "   Multiplication ("],
    after (operandPairs vector_size plaintext1 plaintext2) fun ps => emit [.logPairs "*" ps],
    printResult "): " "mult_result" vector_size mult_result,
    -- Scalar multiplication
    libCall lib.throws (.encode scalars "ptxt_scalar"),
    libCall lib.throws (.multiply_plain "ctxt1" "ptxt_scalar" "ctxt_scalar"),
    libCall lib.throws (.decrypt "ctxt_scalar" "ptxt_scalar_res"),
    libCall lib.throws (.decode "ptxt_scalar_res" "scalar_result"),
    emit [.log "   Scalar multiplication ("],
    after (forIndex vector_size (index "plaintext1" plaintext1)) fun xs =>
      emit [.logPairs "*" (xs.map fun x => (x, scalar))],
    printResult "): " "scalar_result" vector_size scalar_result,
    emit [.logTiming "   Scalar multiplication took "],
    print_bfv_info lib "ctxt_scalar" "ctxt_scalar (after plain_mult)",
    -- Verification
    bfvVerification vector_size plaintext1 plaintext2 scalar sum_result mult_result scalar_result]

/-- The rule `std::string(60, '=')`. -/
def rule : String :=
  String.mk (List.replicate 60 '=')

/-- The opening lines of `demonstrateBFV`. -/
def bfvHeader : List Ev :=
  [.log ("\n" ++ rule),
   .log "BFV (Brakerski-Fan-Vercauteren) with Microsoft SEAL",
   .log rule,
   .log "\n1. Key Generation:",
   .logTiming "   Key generation completed in constructor (",
   .log "\n2. Encryption:"]

/-- What `demonstrateBFV` reads: the size and the two plaintexts. -/
structure BFVInput where
  vector_size : Nat
  plaintext1 : List Int
  plaintext2 : List Int
  /-- the input left unread -/
  rest : List Line
  /-- what the three input routines wrote -/
  out : List Ev

/-- The three input calls of `demonstrateBFV`. -/
def bfvInput (stdin : List Line) : BFVInput :=
  let s := getUserSize stdin
  let p1 := getUserVectorInt s.value "plaintext1" s.rest
  let p2 := getUserVectorInt s.value "plaintext2" p1.rest
  ⟨s.value, p1.value, p2.value, p2.rest, s.out ++ p1.out ++ p2.out⟩

/-- `SEAL_Working::demonstrateBFV`. -/
def demonstrateBFV (lib : BFVLibrary) (stdin : List Line) : Run :=
  let inp := bfvInput stdin
  (emit (bfvHeader ++ inp.out)).andThen
    (bfvBody lib inp.vector_size inp.plaintext1 inp.plaintext2)

/-! ## `verifyVectors` -/

/-- The `for` loop of `verifyVectors` from index `i` on, over the elements of
`expected` and `actual` from that index on. -/
def verifyFrom (i : Nat) : List ℚ → List ℚ → ℚ → Except Halt (Bool × List Ev)
  | [], _, _ => .ok (true, [])
  | _ :: _, [], _ => .error (.outOfRange "actual" i i)
  | e :: es, a :: as, tolerance =>
    if |e - a| > tolerance then .ok (false, [.logVerifyFail i e a])
    else verifyFrom (i + 1) es as tolerance

/-- `SEAL_Working::verifyVectors`, over exact arithmetic: the verdict and
what is written to the log. -/
def verifyVectors (expected actual : List ℚ) (tolerance : ℚ) : Except Halt (Bool × List Ev) :=
  if expected.length > actual.length then .ok (false, [])
  else verifyFrom 0 expected actual tolerance

/-! ## The real-number scheme: `demonstrateCKKS`

`double` is modelled by `ℚ`: the arithmetic of the harness is exact, the
rounding of floating point is not modelled.  The conversion of input text to
`double` is a parameter. -/

/-- The SEAL objects `demonstrateCKKS` works with, seen from outside. -/
structure CKKSLibrary where
  /-- the message of the `std::exception` a call throws, if it throws -/
  throws : Call → Option String
  /-- `sum_result` as decoded from `ctxt_sum`, for `plaintext1`, `plaintext2` -/
  sum_result : List ℚ → List ℚ → List ℚ
  /-- `mult_result` as decoded from the relinearized, rescaled `ctxt_mult` -/
  mult_result : List ℚ → List ℚ → List ℚ
  /-- `scalar_result` as decoded from the rescaled `ctxt_scalar`, for
  `plaintext1` and the scalar -/
  scalar_result : List ℚ → ℚ → List ℚ
  /-- `add_plain_result` as decoded from `ctxt_add_plain` -/
  add_plain_result : List ℚ → List ℚ → List ℚ

/-- `print_ckks_info(ctxt, name)`: the `[INFO]` line; the level is asked of
the library while the line is being written. -/
def print_ckks_info (lib : CKKSLibrary) (ctxt name : String) : Run :=
  (emit [.logInfo name]).andThen (libCall lib.throws (.chain_index ctxt))

/-- The text `label` followed by the loop printing `result[i]` for
`i < vector_size` in `demonstrateCKKS`; `name` is the name of the vector. -/
def printReals (label name : String) (vector_size : Nat) (result : List ℚ) : Run :=
  (emit [.log label]).andThen
    (after (forIndex vector_size (index name result)) fun shown => emit [.logReals name shown])

/-- The four expected vectors of `demonstrateCKKS`. -/
structure CKKSExpected where
  expected_sum : List ℚ
  expected_mult : List ℚ
  expected_scalar : List ℚ
  expected_add_plain : List ℚ
  deriving DecidableEq, Repr

/-- The loop filling the four expected vectors from the plaintexts and the
scalar. -/
def ckksExpected (vector_size : Nat) (plaintext1 plaintext2 : List ℚ) (scalar : ℚ) :
    Except Halt CKKSExpected :=
  match forIndex vector_size (fun i =>
      match index "plaintext1" plaintext1 i with
      | .error h => .error h
      | .ok a =>
        match index "plaintext2" plaintext2 i with
        | .error h => .error h
        | .ok b => .ok (a + b, a * b, a * scalar, a + b)) with
  | .error h => .error h
  | .ok rows =>
    .ok ⟨rows.map (·.1), rows.map (·.2.1), rows.map (·.2.2.1), rows.map (·.2.2.2)⟩

/-- The closing banner of `demonstrateCKKS`. -/
def ckksBanner : List Ev :=
  [.log "\n✅ CKKS with Microsoft SEAL: ALL TESTS PASSING!",
   .log "   - Proper noise management",
   .log "   - Approximate arithmetic",
   .log "   - Real number support"]

/-- The verdict lines and the banner of `demonstrateCKKS`. -/
def ckksReport (sum_correct mult_correct scalar_correct add_plain_correct : Bool) : List Ev :=
  [.log ("   Addition verification: " ++ passFail sum_correct),
   .log ("   Multiplication verification: " ++ passFail mult_correct),
   .log ("   Scalar multiplication verification: " ++ passFail scalar_correct),
   .log ("   Plaintext addition verification: " ++ passFail add_plain_correct)] ++
  (if sum_correct && mult_correct && scalar_correct && add_plain_correct then ckksBanner
   else [])

/-- One `verifyVectors` call inside a run: its log lines are emitted and its
verdict is handed on. -/
def verifyCall (expected actual : List ℚ) (k : Bool → Run) : Run :=
  after (verifyVectors expected actual (1 / 100)) fun r => (emit r.2).andThen (k r.1)

/-- Section `4. Verification` of `demonstrateCKKS`. -/
def ckksVerification (vector_size : Nat) (plaintext1 plaintext2 : List ℚ) (scalar : ℚ)
    (sum_result mult_result scalar_result add_plain_result : List ℚ) : Run :=
  (emit [.log "\n4. Verification:"]).andThen
    (after (ckksExpected vector_size plaintext1 plaintext2 scalar) fun e =>
      verifyCall e.expected_sum (resize sum_result e.expected_sum.length) fun sum_correct =>
      verifyCall e.expected_mult (resize mult_result e.expected_mult.length) fun mult_correct =>
      verifyCall e.expected_scalar (resize scalar_result e.expected_scalar.length)
        fun scalar_correct =>
      verifyCall e.expected_add_plain (resize add_plain_result e.expected_add_plain.length)
        fun add_plain_correct =>
      emit (ckksReport sum_correct mult_correct scalar_correct add_plain_correct))

/-- Everything `demonstrateCKKS` does once the size and the two plaintexts are
read. -/
def ckksBody (lib : CKKSLibrary) (vector_size : Nat) (plaintext1 plaintext2 : List ℚ) : Run :=
  let scalar : ℚ := 2
  let sum_result := lib.sum_result plaintext1 plaintext2
  let mult_result := lib.mult_result plaintext1 plaintext2
  let scalar_result := lib.scalar_result plaintext1 scalar
  let add_plain_result := lib.add_plain_result plaintext1 plaintext2
  Run.seq [
    emit [.log "   Plaintext 1: ", .logReals "plaintext1" plaintext1,
      .log "   Plaintext 2: ", .logReals "plaintext2" plaintext2],
    libCall lib.throws (.encode_real plaintext1 "ptxt1"),
    libCall lib.throws (.encode_real plaintext2 "ptxt2"),
    libCall lib.throws (.encrypt "ptxt1" "ctxt1"),
    libCall lib.throws (.encrypt "ptxt2" "ctxt2"),
    emit [.logTiming "   Encryption completed in "],
    print_ckks_info lib "ctxt1" "ctxt1 (after encryption)",
    print_ckks_info lib "ctxt2" "ctxt2 (after encryption)",
    emit [.log "\n3. Homomorphic Operations:"],
    -- Addition
    libCall lib.throws (.add "ctxt1" "ctxt2" "ctxt_sum"),
    libCall lib.throws (.decrypt "ctxt_sum" "ptxt_sum"),
    libCall lib.throws (.decode "ptxt_sum" "sum_result"),
    printReals "   Addition result: " "sum_result" vector_size sum_result,
    emit [.logTiming "   Addition operation took "],
    print_ckks_info lib "ctxt_sum" "ctxt_sum (after addition)",
    -- Multiplication
    libCall lib.throws (.multiply "ctxt1" "ctxt2" "ctxt_mult"),
    emit [.logTiming "   Multiplication operation took "],
    print_ckks_info lib "ctxt_mult" "ctxt_mult (after multiply)",
    -- Relinearization
    libCall lib.throws (.relinearize_inplace "ctxt_mult"),
    emit [.logTiming "   Relinearization operation took "],
    print_ckks_info lib "ctxt_mult" "ctxt_mult (after relinearize)",
    -- Rescaling
    libCall lib.throws (.rescale_to_next_inplace "ctxt_mult"),
    emit [.logTiming "   Rescaling operation took "],
    print_ckks_info lib "ctxt_mult" "ctxt_mult (after rescale)",
    libCall lib.throws (.decrypt "ctxt_mult" "ptxt_mult"),
    libCall lib.throws (.decode "ptxt_mult" "mult_result"),
    printReals "   Multiplication result: " "mult_result" vector_size mult_result,
    -- Scalar multiplication
    libCall lib.throws (.encode_scalar scalar "ctxt1" "ptxt_scalar"),
    libCall lib.throws (.multiply_plain "ctxt1" "ptxt_scalar" "ctxt_scalar"),
    libCall lib.throws (.rescale_to_next_inplace "ctxt_scalar"),
    libCall lib.throws (.decrypt "ctxt_scalar" "ptxt_scalar_res"),
    libCall lib.throws (.decode "ptxt_scalar_res" "scalar_result"),
    printReals "   Scalar multiplication (2.0x) result: " "scalar_result" vector_size
      scalar_result,
    emit [.logTiming "   Scalar multiplication took "],
    print_ckks_info lib "ctxt_scalar" "ctxt_scalar (after plain_mult)",
    -- Plaintext addition
    libCall lib.throws (.add_plain "ctxt1" "ptxt2" "ctxt_add_plain"),
    libCall lib.throws (.decrypt "ctxt_add_plain" "ptxt_add_plain_res"),
    libCall lib.throws (.decode "ptxt_add_plain_res" "add_plain_result"),
    printReals "   Plaintext addition result: " "add_plain_result" vector_size add_plain_result,
    emit [.logTiming "   Plaintext addition took "],
    print_ckks_info lib "ctxt_add_plain" "ctxt_add_plain (after add_plain)",
    -- Verification
    ckksVerification vector_size plaintext1 plaintext2 scalar sum_result mult_result
      scalar_result add_plain_result]

/-- The opening lines of `demonstrateCKKS`. -/
def ckksHeader : List Ev :=
  [.log ("\n" ++ rule),
   .log "CKKS (Cheon-Kim-Kim-Song) with Microsoft SEAL",
   .log rule,
   .log "\n1. Key Generation:",
   .logTiming "   Key generation completed in constructor (",
   .log "\n2. Encryption:"]

/-- What `demonstrateCKKS` reads: the size and the two plaintexts. -/
structure CKKSInput where
  vector_size : Nat
  plaintext1 : List ℚ
  plaintext2 : List ℚ
  /-- the input left unread -/
  rest : List Line
  /-- what the three input routines wrote -/
  out : List Ev

/-- The three input calls of `demonstrateCKKS`. -/
def ckksInput (extractDouble : List Char → Option (ℚ × List Char)) (stdin : List Line) :
    CKKSInput :=
  let s := getUserSize stdin
  let p1 := getUserVectorDouble extractDouble s.value "plaintext1" s.rest
  let p2 := getUserVectorDouble extractDouble s.value "plaintext2" p1.rest
  ⟨s.value, p1.value, p2.value, p2.rest, s.out ++ p1.out ++ p2.out⟩

/-- `SEAL_Working::demonstrateCKKS`. -/
def demonstrateCKKS (extractDouble : List Char → Option (ℚ × List Char)) (lib : CKKSLibrary)
    (stdin : List Line) : Run :=
  let inp := ckksInput extractDouble stdin
  (emit (ckksHeader ++ inp.out)).andThen
    (ckksBody lib inp.vector_size inp.plaintext1 inp.plaintext2)

/-- The ring dimension set by `create_bfv_parms` and `create_ckks_parms`. -/
def poly_modulus_degree : Nat := 8192

/-- A text-to-`double` conversion for evaluating runs: it reads whole numbers
only. -/
def extractWhole (ss : List Char) : Option (ℚ × List Char) :=
  (extractInt64 ss).map fun p => ((p.1 : ℚ), p.2)

/-- A real-number library for evaluating runs: nothing throws, and each
decoded vector has `slots` entries holding the exact slot-wise results
followed by zeros. -/
def exactRealLibrary (slots : Nat) : CKKSLibrary where
  throws _ := none
  sum_result p1 p2 := resize (List.zipWith (· + ·) p1 p2) slots
  mult_result p1 p2 := resize (List.zipWith (· * ·) p1 p2) slots
  scalar_result p1 s := resize (p1.map (· * s)) slots
  add_plain_result p1 p2 := resize (List.zipWith (· + ·) p1 p2) slots

/-- The library call an event records, if it records one. -/
def callOf : Ev → Option Call
  | .call c => some c
  | _ => none

/-- The library calls among the events of a run. -/
def Run.calls (r : Run) : List Call :=
  r.events.filterMap callOf

/-- An integer-scheme library for evaluating runs: nothing throws, and each
decoded vector has `slots` entries holding the slot-wise results followed by
zeros. -/
def quietLibrary (slots : Nat) : BFVLibrary where
  throws _ := none
  sum_result p1 p2 := resize (List.zipWith (· + ·) p1 p2) slots
  mult_result p1 p2 := resize (List.zipWith (· * ·) p1 p2) slots
  scalar_result p1 s := resize (List.zipWith (· * ·) p1 s) slots

/-- An integer-scheme library for evaluating runs: `encode` throws on more
values than `slots`, nothing else throws, and each decoded vector has `slots`
entries holding the slot-wise results followed by zeros. -/
def exactLibrary (slots : Nat) : BFVLibrary where
  throws c := match c with
    | .encode values _ => if slots < values.length then some "values_size is too large" else none
    | _ => none
  sum_result p1 p2 := resize (List.zipWith (· + ·) p1 p2) slots
  mult_result p1 p2 := resize (List.zipWith (· * ·) p1 p2) slots
  scalar_result p1 s := resize (List.zipWith (· * ·) p1 s) slots

/-! ## `main` -/

/-- A line with its surrounding white space removed. -/
def strip (line : Line) : Line :=
  (line.dropWhile isspace).rdropWhile isspace

/-- The integer a text denotes when the text is one decimal integer and
nothing else: an optional sign and at least one digit. -/
def decimalInteger (s : List Char) : Option Int :=
  let t := takeSign s
  if t.2 ≠ [] ∧ t.2.all isdigit = true then
    some (if t.1 then -(digitsVal t.2 : Int) else (digitsVal t.2 : Int))
  else none

/-- The specification's valid size line: apart from surrounding white space
its only content is one decimal integer greater than 0.  Yields that
integer. -/
def validSizeLine (line : Line) : Option Nat :=
  match decimalInteger (strip line) with
  | some v => if 0 < v then some v.toNat else none
  | none => none

/-- The first character of the line that is not white space is a minus sign. -/
def startsWithMinus (line : Line) : Bool :=
  (line.dropWhile isspace).head? == some '-'

/-- The message `getUserSize` prints for a line it rejects. -/
def sizeReject (line : Line) : Ev :=
  if sizeStep line = .trailing then sizeErrSingle else sizeErrPositive

/-- The integer of a valid size line that fits `size_t`, that is, lies
below `2 ^ 64`. -/
def fitsSizeT (line : Line) : Option Nat :=
  match validSizeLine line with
  | some n => if n < SIZE_RANGE then some n else none
  | none => none

/-- The first `n` numbers of a line that begins with at least `n` parseable
numbers: `n` extractions in a row succeed. -/
def leadingNumbers {α : Type} (extract : List Char → Option (α × List Char)) :
    Nat → List Char → Option (List α)
  | 0, _ => some []
  | n + 1, ss =>
    match extract ss with
    | none => none
    | some (val, ss1) =>
      match leadingNumbers extract n ss1 with
      | none => none
      | some vals => some (val :: vals)

/-- The line is exactly `n` space-separated integers: split at the spaces it
has `n` fields and every field is one decimal integer. -/
def exactlyNumbers (n : Nat) (line : Line) : Bool :=
  (line.splitOn ' ').length == n && (line.splitOn ' ').all fun t => (decimalInteger t).isSome

/-- The line consists of optional white space, an optional plus sign, the
digits `ds` and the white space `w`. -/
def NumeralLine (line : Line) (ds w : List Char) : Prop :=
  ∃ pre : List Char, line.dropWhile isspace = pre ++ ds ++ w ∧ (pre = [] ∨ pre = ['+']) ∧
    ds ≠ [] ∧ (∀ c ∈ ds, isdigit c = true) ∧ (∀ c ∈ w, isspace c = true)

/-! ## Plaintext modulus and wrap-around -/

/-- `2 ^ 20`: every plaintext modulus that
`PlainModulus::Batching(poly_modulus_degree, 20)` can yield lies below it. -/
def PLAIN_MODULUS_RANGE : Nat := 1048576

/-- The centered representative of `x` modulo the plaintext modulus `t`, as
the batch decoder delivers it: the residue of `x`, less `t` when the residue
exceeds half of `t`. -/
def centered (t : Nat) (x : Int) : Int :=
  if x % (t : Int) > ((t : Int) + 1) / 2 then x % (t : Int) - t else x % (t : Int)

/-- An integer-scheme library for evaluating runs: nothing throws, and each
decoded vector has `slots` entries holding the slot-wise results reduced
modulo the plaintext modulus `t` in centered representation, followed by
zeros. -/
def centeredLibrary (t slots : Nat) : BFVLibrary where
  throws _ := none
  sum_result p1 p2 := resize (List.zipWith (fun a b => centered t (a + b)) p1 p2) slots
  mult_result p1 p2 := resize (List.zipWith (fun a b => centered t (a * b)) p1 p2) slots
  scalar_result p1 s := resize (List.zipWith (fun a b => centered t (a * b)) p1 s) slots

/-- The decimal numeral of a natural number, most significant digit first. -/
def numeral (n : Nat) : List Char :=
  if n = 0 then ['0'] else (Nat.digits 10 n).reverse.map fun d => Char.ofNat (d + 48)

/-- The decimal numeral of an integer: a minus sign in front of a negative
one. -/
def intNumeral (v : Int) : List Char :=
  if v < 0 then '-' :: numeral v.natAbs else numeral v.natAbs

/-! ## Decoded results within tolerance -/

/-- The decoded vector has a slot for every expected value and each such slot
is within `tolerance` of its expected value. -/
def WithinTolerance (expected decoded : List ℚ) (tolerance : ℚ) : Prop :=
  expected.length ≤ decoded.length ∧
    ∀ i, i < expected.length → |expected.getD i 0 - decoded.getD i 0| ≤ tolerance

/-- A text-to-`double` conversion for evaluating runs: it reads plain decimal
numerals, an optional sign, digits and an optional fraction after a point (no
exponent), as exact rationals. -/
def extractDecimal (ss : List Char) : Option (ℚ × List Char) :=
  let s := takeSign (ss.dropWhile isspace)
  let whole := s.2.takeWhile isdigit
  let sign : ℚ := if s.1 then -1 else 1
  match s.2.dropWhile isdigit with
  | '.' :: r =>
    let frac := r.takeWhile isdigit
    if whole = [] ∧ frac = [] then none
    else some (sign * ((digitsVal whole : ℚ) + (digitsVal frac : ℚ) / (10 ^ frac.length : ℕ)),
      r.dropWhile isdigit)
  | r => if whole = [] then none else some (sign * (digitsVal whole : ℚ), r)

/-- A real-number library for evaluating runs: nothing throws, and the decoded
vectors are the exact slot-wise results with every slot moved by `noise`,
followed by `extra` zeros. -/
def noisyRealLibrary (noise : ℚ) (extra : Nat) : CKKSLibrary where
  throws _ := none
  sum_result p1 p2 := List.zipWith (fun a b => a + b + noise) p1 p2 ++ List.replicate extra 0
  mult_result p1 p2 := List.zipWith (fun a b => a * b + noise) p1 p2 ++ List.replicate extra 0
  scalar_result p1 s := p1.map (fun a => a * s + noise) ++ List.replicate extra 0
  add_plain_result p1 p2 :=
    List.zipWith (fun a b => a + b + noise) p1 p2 ++ List.replicate extra 0

/-- An integer-scheme library for evaluating runs: nothing throws and every
decoded vector is empty. -/
def emptyLibrary : BFVLibrary where
  throws _ := none
  sum_result _ _ := []
  mult_result _ _ := []
  scalar_result _ _ := []

/-- A real-number library for evaluating runs: nothing throws and every
decoded vector is empty. -/
def emptyRealLibrary : CKKSLibrary where
  throws _ := none
  sum_result _ _ := []
  mult_result _ _ := []
  scalar_result _ _ := []
  add_plain_result _ _ := []

/-! ## The sequence of library calls -/

/-- The library calls of `demonstrateBFV` in program order, for the plaintexts
read. -/
def bfvCalls (plaintext1 plaintext2 : List Int) : List Call :=
  [.encode plaintext1 "ptxt1", .encode plaintext2 "ptxt2", .to_string "ptxt1",
   .encrypt "ptxt1" "ctxt1", .encrypt "ptxt2" "ctxt2",
   .invariant_noise_budget "ctxt1", .invariant_noise_budget "ctxt2",
   .add "ctxt1" "ctxt2" "ctxt_sum", .decrypt "ctxt_sum" "ptxt_sum",
   .decode "ptxt_sum" "sum_result", .invariant_noise_budget "ctxt_sum",
   .multiply "ctxt1" "ctxt2" "ctxt_mult", .invariant_noise_budget "ctxt_mult",
   .relinearize_inplace "ctxt_mult", .invariant_noise_budget "ctxt_mult",
   .decrypt "ctxt_mult" "ptxt_mult", .decode "ptxt_mult" "mult_result",
   .encode (List.replicate plaintext1.length 2) "ptxt_scalar",
   .multiply_plain "ctxt1" "ptxt_scalar" "ctxt_scalar",
   .decrypt "ctxt_scalar" "ptxt_scalar_res", .decode "ptxt_scalar_res" "scalar_result",
   .invariant_noise_budget "ctxt_scalar"]

/-- The library calls of `demonstrateCKKS` in program order, for the
plaintexts read. -/
def ckksCalls (plaintext1 plaintext2 : List ℚ) : List Call :=
  [.encode_real plaintext1 "ptxt1", .encode_real plaintext2 "ptxt2",
   .encrypt "ptxt1" "ctxt1", .encrypt "ptxt2" "ctxt2",
   .chain_index "ctxt1", .chain_index "ctxt2",
   .add "ctxt1" "ctxt2" "ctxt_sum", .decrypt "ctxt_sum" "ptxt_sum",
   .decode "ptxt_sum" "sum_result", .chain_index "ctxt_sum",
   .multiply "ctxt1" "ctxt2" "ctxt_mult", .chain_index "ctxt_mult",
   .relinearize_inplace "ctxt_mult", .chain_index "ctxt_mult",
   .rescale_to_next_inplace "ctxt_mult", .chain_index "ctxt_mult",
   .decrypt "ctxt_mult" "ptxt_mult", .decode "ptxt_mult" "mult_result",
   .encode_scalar 2 "ctxt1" "ptxt_scalar",
   .multiply_plain "ctxt1" "ptxt_scalar" "ctxt_scalar",
   .rescale_to_next_inplace "ctxt_scalar",
   .decrypt "ctxt_scalar" "ptxt_scalar_res", .decode "ptxt_scalar_res" "scalar_result",
   .chain_index "ctxt_scalar",
   .add_plain "ctxt1" "ptxt2" "ctxt_add_plain",
   .decrypt "ctxt_add_plain" "ptxt_add_plain_res",
   .decode "ptxt_add_plain_res" "add_plain_result", .chain_index "ctxt_add_plain"]

/-- The calls of a run lie within `cs`: they are an initial stretch of `cs`,
and all of `cs` when the run does not halt. -/
def Run.CallsWithin (r : Run) (cs : List Call) : Prop :=
  r.calls <+: cs ∧ (r.halt = none → r.calls = cs)

/-- A check of a sequence of calls against a rule: `step` gives the state
after a call, or `none` when the call breaks the rule. -/
def checkCalls {σ : Type} (step : σ → Call → Option σ) : σ → List Call → Option σ
  | st, [] => some st
  | st, c :: cs =>
    match step st c with
    | none => none
    | some st1 => checkCalls step st1 cs

/-- The ciphertexts a call decrypts or takes as operand of an evaluator
operation that combines ciphertexts or plaintexts. -/
def operands : Call → List String
  | .add a b _ => [a, b]
  | .multiply a b _ => [a, b]
  | .multiply_plain c _ _ => [c]
  | .add_plain c _ _ => [c]
  | .decrypt src _ => [src]
  | _ => []

/-- The steps still owed to ciphertexts produced by a multiplication. -/
structure Owed where
  /-- ciphertexts not yet relinearized -/
  relin : List String
  /-- ciphertexts not yet rescaled -/
  rescale : List String
  deriving DecidableEq, Repr

/-- The rule "relinearization (and, in the real-number scheme, rescaling)
follows every multiplication before further operations".  A call may neither
decrypt nor take as operand a ciphertext to which a step is owed; `multiply`
makes its result owe relinearization, and in the real-number scheme `multiply`
and `multiply_plain` make it owe rescaling; rescaling comes after the owed
relinearization. -/
def followUp (ckks : Bool) (st : Owed) (c : Call) : Option Owed :=
  if (operands c).any (fun x => st.relin.contains x || st.rescale.contains x) then none
  else
    match c with
    | .multiply _ _ dst =>
      some ⟨dst :: st.relin, if ckks then dst :: st.rescale else st.rescale⟩
    | .multiply_plain _ _ dst =>
      some ⟨st.relin, if ckks then dst :: st.rescale else st.rescale⟩
    | .relinearize_inplace x => some ⟨st.relin.filter (· != x), st.rescale⟩
    | .rescale_to_next_inplace x =>
      if st.relin.contains x then none else some ⟨st.relin, st.rescale.filter (· != x)⟩
    | _ => some st

/-- The `ckks_scale` member: `pow(2.0, 40)`. -/
def ckks_scale : ℚ := 1099511627776

/-- The bit sizes `{60, 40, 40, 60}` given to `CoeffModulus::Create` in
`create_ckks_parms`. -/
def ckks_coeff_modulus_bits : List Nat := [60, 40, 40, 60]

/-- The level of a freshly encrypted ciphertext for that chain: the last
modulus serves key switching only, the data levels below it count down
to 0. -/
def ckksTopLevel : Nat := ckks_coeff_modulus_bits.length - 2

/-- Modelled from the spec: the metadata the evaluator table of section 4.5
tracks for a ciphertext or plaintext: size, level (modulus-chain index) and
scale. -/
structure Metadata where
  size : Nat
  level : Nat
  scale : ℚ
  deriving DecidableEq, Repr

/-- The metadata of the program variable `name`, if it was written. -/
def metadataOf (st : List (String × Metadata)) (name : String) : Option Metadata :=
  match st.find? (fun e => e.1 == name) with
  | some e => some e.2
  | none => none

/-- Modelled from the spec: the evaluator table of section 4.5 together with
the encoder and encryptor of sections 4.3 and 4.4, as a rule on calls.  A
state gives the metadata of each variable written so far; `top` is the top
level and `dropped l` the modulus dropped on leaving level `l`.  A call whose
precondition fails, or that reads a variable never written, yields `none`.

* `encode(values, scale)` gives a plaintext at the top level with the scale
  given; `encode(value, like.parms_id(), like.scale())` one at the level and
  scale of `like`.
* `encrypt` gives a ciphertext at the top level with size 2 and the scale of
  the plaintext.
* `add`: same level and same scale; size unchanged.
* `multiply`: same level; size becomes 3, scale the product of the scales.
* `relinearize`: size 3; size becomes 2.
* `multiply_plain`: same level; size unchanged, scale multiplies.
* `add_plain`: same level and same scale; size and level unchanged.
* `rescale_to_next`: level above 0; the level drops by one and the scale is
  divided by the dropped modulus.
* `decrypt` gives a plaintext with the level and scale of the ciphertext;
  the other calls change nothing. -/
def evaluatorRule (top : Nat) (dropped : Nat → ℚ) (st : List (String × Metadata)) (c : Call) :
    Option (List (String × Metadata)) :=
  match c with
  | .encode_real _ dst => some ((dst, ⟨1, top, ckks_scale⟩) :: st)
  | .encode_scalar _ like dst =>
    match metadataOf st like with
    | some m => some ((dst, ⟨1, m.level, m.scale⟩) :: st)
    | none => none
  | .encrypt src dst =>
    match metadataOf st src with
    | some p => some ((dst, ⟨2, top, p.scale⟩) :: st)
    | none => none
  | .add a b dst =>
    match metadataOf st a, metadataOf st b with
    | some x, some y =>
      if x.level = y.level ∧ x.scale = y.scale then some ((dst, x) :: st) else none
    | _, _ => none
  | .multiply a b dst =>
    match metadataOf st a, metadataOf st b with
    | some x, some y =>
      if x.level = y.level then some ((dst, ⟨3, x.level, x.scale * y.scale⟩) :: st) else none
    | _, _ => none
  | .relinearize_inplace x =>
    match metadataOf st x with
    | some m => if m.size = 3 then some ((x, ⟨2, m.level, m.scale⟩) :: st) else none
    | none => none
  | .multiply_plain a p dst =>
    match metadataOf st a, metadataOf st p with
    | some x, some y =>
      if x.level = y.level then some ((dst, ⟨x.size, x.level, x.scale * y.scale⟩) :: st)
      else none
    | _, _ => none
  | .add_plain a p dst =>
    match metadataOf st a, metadataOf st p with
    | some x, some y =>
      if x.level = y.level ∧ x.scale = y.scale then some ((dst, x) :: st) else none
    | _, _ => none
  | .rescale_to_next_inplace x =>
    match metadataOf st x with
    | some m =>
      if 0 < m.level then some ((x, ⟨m.size, m.level - 1, m.scale / dropped m.level⟩) :: st)
      else none
    | none => none
  | .decrypt src dst =>
    match metadataOf st src with
    | some m => some ((dst, ⟨1, m.level, m.scale⟩) :: st)
    | none => none
  | _ => some st

/-- The ciphertext or plaintext variable a call writes, if it writes one. -/
def written : Call → Option String
  | .encode _ dst => some dst
  | .encode_real _ dst => some dst
  | .encode_scalar _ _ dst => some dst
  | .encrypt _ dst => some dst
  | .add _ _ dst => some dst
  | .multiply _ _ dst => some dst
  | .multiply_plain _ _ dst => some dst
  | .add_plain _ _ dst => some dst
  | .relinearize_inplace x => some x
  | .rescale_to_next_inplace x => some x
  | .decrypt _ dst => some dst
  | .decode _ dst => some dst
  | _ => none

/-- The ciphertext a call rescales, if it is a `rescale_to_next_inplace`. -/
def rescaled : Call → Option String
  | .rescale_to_next_inplace x => some x
  | _ => none

/-! ## Characters and digit runs -/

theorem isdigit_not_isspace {c : Char} (h : isdigit c = true) : isspace c = false := by
  simp only [isdigit, isspace, Bool.and_eq_true, decide_eq_true_eq, Bool.or_eq_false_iff,
    beq_eq_false_iff_ne, ne_eq, Bool.and_eq_false_iff, decide_eq_false_iff_not] at *
  omega

theorem isdigit_not_sign {c : Char} (h : isdigit c = true) : c ≠ '-' ∧ c ≠ '+' := by
  constructor <;> rintro rfl <;> simp [isdigit] at h

theorem isspace_not_isdigit {c : Char} (h : isspace c = true) : isdigit c = false := by
  cases hd : isdigit c
  · rfl
  · rw [isdigit_not_isspace hd] at h; cases h

/-- A digit run followed by white space only splits at the end of the digits. -/
theorem span_digits_spaces (ds w : List Char) (hds : ∀ c ∈ ds, isdigit c = true)
    (hw : ∀ c ∈ w, isspace c = true) :
    (ds ++ w).takeWhile isdigit = ds ∧ (ds ++ w).dropWhile isdigit = w := by
  have hw0 : w.takeWhile isdigit = [] ∧ w.dropWhile isdigit = w := by
    cases w with
    | nil => simp
    | cons x w =>
      have hx : isdigit x = false := isspace_not_isdigit (hw x (List.mem_cons_self _ _))
      simp [List.takeWhile, List.dropWhile, hx]
  rw [List.takeWhile_append_of_pos hds, List.dropWhile_append_of_pos hds, hw0.1, hw0.2]
  simp

/-- Trailing white space is what `rdropWhile isspace` removes. -/
theorem rdropWhile_append_spaces (a w : List Char) (hw : ∀ c ∈ w, isspace c = true)
    (ha : ∀ h : a ≠ [], isspace (a.getLast h) = false) :
    (a ++ w).rdropWhile isspace = a := by
  induction w using List.reverseRecOn with
  | nil =>
    rw [List.append_nil, List.rdropWhile_eq_self_iff]
    intro h; simp [ha h]
  | append_singleton w x ih =>
    rw [← List.append_assoc, List.rdropWhile_concat_pos _ _ _ (hw x (by simp))]
    exact ih fun c hc => hw c (by simp [hc])

/-- What `rdropWhile` removes is a run of elements satisfying the predicate. -/
theorem rdropWhile_split (p : Char → Bool) (l : List Char) :
    ∃ w, l = l.rdropWhile p ++ w ∧ ∀ c ∈ w, p c = true := by
  induction l using List.reverseRecOn with
  | nil => exact ⟨[], by simp, by simp⟩
  | append_singleton l x ih =>
    by_cases hx : p x = true
    · obtain ⟨w, hl, hw⟩ := ih
      refine ⟨w ++ [x], ?_, ?_⟩
      · rw [List.rdropWhile_concat_pos _ _ _ hx, ← List.append_assoc, ← hl]
      · intro c hc
        rcases List.mem_append.1 hc with h | h
        · exact hw c h
        · rw [List.mem_singleton.1 h]; exact hx
    · exact ⟨[], by rw [List.rdropWhile_concat_neg _ _ _ hx]; simp, by simp⟩

/-! ## Size lines: the code against the specification's valid line -/

theorem takeSign_numeral (pre ds w : List Char) (hpre : pre = [] ∨ pre = ['+'])
    (hne : ds ≠ []) (hds : ∀ c ∈ ds, isdigit c = true) :
    takeSign (pre ++ ds ++ w) = (false, ds ++ w) := by
  rcases hpre with rfl | rfl
  · cases ds with
    | nil => exact absurd rfl hne
    | cons d ds =>
      have hd := isdigit_not_sign (hds d (List.mem_cons_self _ _))
      simp [takeSign, hd.1, hd.2]
  · simp [takeSign]

theorem extractSizeT_numeral {line : Line} {ds w : List Char} (h : NumeralLine line ds w)
    (hlt : digitsVal ds < SIZE_RANGE) : extractSizeT line = some (digitsVal ds, w) := by
  obtain ⟨pre, he, hpre, hne, hds, hw⟩ := h
  have hsp := span_digits_spaces ds w hds hw
  simp only [extractSizeT, he, takeSign_numeral pre ds w hpre hne hds, hsp.1, hsp.2, hne,
    if_false, Nat.not_le.2 hlt]
  simp

theorem sizeStep_numeral {line : Line} {ds w : List Char} (h : NumeralLine line ds w)
    (hpos : 0 < digitsVal ds) (hlt : digitsVal ds < SIZE_RANGE) :
    sizeStep line = .accept (digitsVal ds) := by
  have hw : w.dropWhile isspace = [] := by
    obtain ⟨pre, -, -, -, -, hw⟩ := h
    exact List.dropWhile_eq_nil_iff.2 hw
  simp [sizeStep, extractSizeT_numeral h hlt, hpos, extractChar, hw]

theorem validSizeLine_numeral {line : Line} {ds w : List Char} (h : NumeralLine line ds w) :
    validSizeLine line = if 0 < digitsVal ds then some (digitsVal ds) else none := by
  obtain ⟨pre, he, hpre, hne, hds, hw⟩ := h
  have hstrip : strip line = pre ++ ds := by
    unfold strip
    rw [he]
    apply rdropWhile_append_spaces _ _ hw
    intro hnil
    rw [List.getLast_append_of_ne_nil hne]
    exact isdigit_not_isspace (hds _ (List.getLast_mem hne))
  have hsign : takeSign (pre ++ ds) = (false, ds) := by
    simpa using takeSign_numeral pre ds [] hpre hne hds
  have hall : ds.all isdigit = true := List.all_eq_true.2 hds
  simp only [validSizeLine, decimalInteger, hstrip, hsign, hne, hall, ne_eq, not_false_eq_true,
    and_self, if_true]
  by_cases hpos : 0 < digitsVal ds
  · simp [hpos]
  · simp [hpos]

theorem numeral_of_sizeStep {line : Line} {m : Nat} (h : sizeStep line = .accept m)
    (hminus : startsWithMinus line = false) :
    ∃ ds w, NumeralLine line ds w ∧ m = digitsVal ds ∧ 0 < m ∧ m < SIZE_RANGE := by
  unfold sizeStep at h
  split at h
  next size ss hx =>
    split at h
    next hpos =>
      split at h
      next => cases h
      next hc =>
        injection h with hm
        subst hm
        -- the stream after the number holds white space only
        have hss : ∀ c ∈ ss, isspace c = true := by
          apply List.dropWhile_eq_nil_iff.1
          unfold extractChar at hc
          split at hc
          · assumption
          · cases hc
        unfold extractSizeT at hx
        simp only at hx
        split at hx
        · cases hx
        next hne =>
          split at hx
          · cases hx
          next hlt =>
            simp only [Option.some.injEq, Prod.mk.injEq] at hx
            obtain ⟨hval, hrest⟩ := hx
            -- no minus sign in front
            have hsign : (takeSign (line.dropWhile isspace)).1 = false ∧
                ∃ pre, (pre = [] ∨ pre = ['+']) ∧
                  line.dropWhile isspace = pre ++ (takeSign (line.dropWhile isspace)).2 := by
              unfold startsWithMinus at hminus
              cases hs : line.dropWhile isspace with
              | nil => exact ⟨rfl, [], Or.inl rfl, rfl⟩
              | cons c t =>
                rw [hs] at hminus
                have hc1 : c ≠ '-' := by
                  intro hc1; subst hc1; simp at hminus
                by_cases hc2 : c = '+'
                · subst hc2
                  exact ⟨by simp [takeSign], ['+'], Or.inr rfl, by simp [takeSign]⟩
                · exact ⟨by simp [takeSign, hc1, hc2], [], Or.inl rfl,
                    by simp [takeSign, hc1, hc2]⟩
            obtain ⟨hneg, pre, hpre, hsplit⟩ := hsign
            rw [hneg] at hval
            simp only [Bool.false_eq_true, if_false] at hval
            refine ⟨_, ss, ⟨pre, ?_, hpre, hne, ?_, hss⟩, hval.symm, hpos, ?_⟩
            · rw [List.append_assoc, ← hrest, List.takeWhile_append_dropWhile]
              exact hsplit
            · intro c hc
              exact List.mem_takeWhile_imp hc
            · rw [← hval]; exact Nat.not_le.1 hlt
    next => cases h
  next => cases h

theorem numeral_of_validSizeLine {line : Line} {n : Nat} (h : validSizeLine line = some n) :
    ∃ ds w, NumeralLine line ds w ∧ n = digitsVal ds ∧ 0 < n := by
  unfold validSizeLine at h
  split at h
  next v hv =>
    split at h
    next hpos =>
      injection h with hn
      unfold decimalInteger at hv
      simp only at hv
      split at hv
      next hcond =>
        obtain ⟨hne, hall⟩ := hcond
        injection hv with hv
        have hds := List.all_eq_true.1 hall
        obtain ⟨w, hw, hwsp⟩ := rdropWhile_split isspace (line.dropWhile isspace)
        -- the sign is not a minus: the value is positive
        cases hs : strip line with
        | nil => simp [hs, takeSign] at hne
        | cons c t =>
          have hs2 : (line.dropWhile isspace).rdropWhile isspace = c :: t := hs
          rw [hs] at hv hne hds
          by_cases hc1 : c = '-'
          · subst hc1
            simp [takeSign] at hv
            omega
          · by_cases hc2 : c = '+'
            · subst hc2
              have hsg : takeSign ('+' :: t) = (false, t) := by simp [takeSign]
              rw [hsg] at hv hne hds
              simp only [Bool.false_eq_true, if_false] at hv
              refine ⟨t, w, ⟨['+'], ?_, Or.inr rfl, hne, hds, hwsp⟩, ?_, ?_⟩
              · rw [hw, hs2]; simp
              · omega
              · omega
            · have hsg : takeSign (c :: t) = (false, c :: t) := by simp [takeSign, hc1, hc2]
              rw [hsg] at hv hne hds
              simp only [Bool.false_eq_true, if_false] at hv
              refine ⟨c :: t, w, ⟨[], ?_, Or.inl rfl, hne, hds, hwsp⟩, ?_, ?_⟩
              · rw [hw, hs2]; simp
              · omega
              · omega
      next => cases hv
    next => cases h
  next => cases h

/-- On a line that does not start with a minus sign the loop body accepts
exactly the specification's valid lines whose integer fits `size_t`. -/
theorem sizeStep_accept_iff {line : Line} (m : Nat) (hminus : startsWithMinus line = false) :
    sizeStep line = .accept m ↔ validSizeLine line = some m ∧ m < SIZE_RANGE := by
  constructor
  · intro h
    obtain ⟨ds, w, hnum, hm, hpos, hlt⟩ := numeral_of_sizeStep h hminus
    rw [validSizeLine_numeral hnum, ← hm]
    simp [hpos, hlt]
  · rintro ⟨h, hlt⟩
    obtain ⟨ds, w, hnum, hm, hpos⟩ := numeral_of_validSizeLine h
    rw [hm]
    exact sizeStep_numeral hnum (hm ▸ hpos) (hm ▸ hlt)

/-- A valid size line never starts with a minus sign. -/
theorem validSizeLine_not_minus {line : Line} {n : Nat} (h : validSizeLine line = some n) :
    startsWithMinus line = false := by
  obtain ⟨ds, w, ⟨pre, he, hpre, hne, hds, -⟩, -, -⟩ := numeral_of_validSizeLine h
  unfold startsWithMinus
  rw [he]
  rcases hpre with rfl | rfl
  · cases ds with
    | nil => exact absurd rfl hne
    | cons d ds =>
      have hd := (isdigit_not_sign (hds d (List.mem_cons_self _ _))).1
      simp [hd]
  · simp

theorem fitsSizeT_eq_some {line : Line} {n : Nat} :
    fitsSizeT line = some n ↔ validSizeLine line = some n ∧ n < SIZE_RANGE := by
  unfold fitsSizeT
  cases h : validSizeLine line with
  | none => simp
  | some m =>
    by_cases hm : m < SIZE_RANGE
    · simp only [hm, if_true, Option.some.injEq]
      constructor
      · rintro rfl; exact ⟨rfl, hm⟩
      · rintro ⟨h1, -⟩; exact h1
    · simp only [hm, if_false, Option.some.injEq]
      constructor
      · intro h0; cases h0
      · rintro ⟨rfl, h2⟩; exact absurd h2 hm

theorem sizeStep_of_fitsSizeT {line : Line} {n : Nat} (h : fitsSizeT line = some n) :
    sizeStep line = .accept n := by
  have h1 := fitsSizeT_eq_some.1 h
  exact (sizeStep_accept_iff n (validSizeLine_not_minus h1.1)).2 h1

theorem sizeStep_of_not_fitsSizeT {line : Line} (h : fitsSizeT line = none)
    (hminus : startsWithMinus line = false) (n : Nat) : sizeStep line ≠ .accept n := by
  intro hacc
  have h1 := fitsSizeT_eq_some.2 ((sizeStep_accept_iff n hminus).1 hacc)
  rw [h] at h1
  cases h1

/-! ## The loop of `getUserSize` -/

theorem getUserSizeLoop_accept {line : Line} {n : Nat} (h : sizeStep line = .accept n)
    (rest : List Line) :
    (getUserSizeLoop (line :: rest) 0).value = n ∧ (getUserSizeLoop (line :: rest) 0).rest = rest ∧
      (getUserSizeLoop (line :: rest) 0).out = [sizePrompt] := by
  simp [getUserSizeLoop, h]

theorem getUserSizeLoop_reject {line : Line} (h : ∀ n, sizeStep line ≠ .accept n)
    (rest : List Line) :
    (getUserSizeLoop (line :: rest) 0).value = (getUserSizeLoop rest 0).value ∧
      (getUserSizeLoop (line :: rest) 0).rest = (getUserSizeLoop rest 0).rest ∧
      (getUserSizeLoop (line :: rest) 0).out =
        sizePrompt :: sizeReject line :: (getUserSizeLoop rest 0).out := by
  cases hs : sizeStep line with
  | accept n => exact absurd hs (h n)
  | trailing => simp [getUserSizeLoop, hs, sizeReject]
  | notPositive => simp [getUserSizeLoop, hs, sizeReject]

theorem sizeStep_accept_pos {line : Line} {n : Nat} (h : sizeStep line = .accept n) : 0 < n := by
  unfold sizeStep at h
  split at h
  · split at h
    next hpos =>
      split at h
      · cases h
      · injection h with h; exact h ▸ hpos
    · cases h
  · cases h

theorem getUserSize_accept {line : Line} {n : Nat} (h : sizeStep line = .accept n)
    (rest : List Line) :
    (getUserSize (line :: rest)).value = n ∧ (getUserSize (line :: rest)).rest = rest := by
  have hl := getUserSizeLoop_accept h rest
  simp [getUserSize, hl.1, hl.2.1]

theorem getUserSizeLoop_first_accept (pre post : List Line) (line : Line) (n : Nat)
    (hpre : ∀ e ∈ pre, ∀ m, sizeStep e ≠ .accept m) (hline : sizeStep line = .accept n) :
    (getUserSizeLoop (pre ++ line :: post) 0).value = n ∧
      (getUserSizeLoop (pre ++ line :: post) 0).rest = post ∧
      (getUserSizeLoop (pre ++ line :: post) 0).out =
        (pre.map fun e => [sizePrompt, sizeReject e]).flatten ++ [sizePrompt] := by
  induction pre with
  | nil => simpa using getUserSizeLoop_accept hline post
  | cons e pre ih =>
    have hrec := ih fun x hx => hpre x (List.mem_cons_of_mem _ hx)
    have hstep := getUserSizeLoop_reject (hpre e (List.mem_cons_self _ _)) (pre ++ line :: post)
    simp only [List.cons_append, List.map_cons, List.flatten_cons]
    rw [hstep.1, hstep.2.1, hstep.2.2, hrec.1, hrec.2.1, hrec.2.2]
    simp

/-- C1, as stated, fails: the first line is one decimal integer greater than 0,
yet `getUserSize` rejects it (it does not fit `size_t`) and returns the
integer of the next line. -/
theorem getUserSize_rejects_huge :
    validSizeLine "18446744073709551616".toList = some 18446744073709551616 ∧
      (getUserSize ["18446744073709551616".toList, "4".toList]).value = 4 ∧
      (getUserSize ["18446744073709551616".toList, "4".toList]).out =
        [sizePrompt, sizeErrPositive, sizePrompt, .logSize 4] := by
  decide

/-- A line holding a negative number is accepted: `ss >> size` negates the
magnitude in the unsigned type, and `-5` becomes `2 ^ 64 - 5`. -/
theorem getUserSize_minus_wraps :
    validSizeLine "-5".toList = none ∧
      (getUserSize ["-5".toList, "4".toList]).value = 18446744073709551611 ∧
      (getUserSize ["-5".toList, "4".toList]).rest = ["4".toList] := by
  decide

/-- C1 (amended): when the input has a line whose only content, apart from
surrounding white space, is one decimal integer `n` with `0 < n < 2 ^ 64`, and
no earlier line is such a line or starts with a minus sign, `getUserSize`
returns `n`, leaves unread exactly the lines after it, and each earlier line
is answered by an error message followed by a new prompt. -/
theorem getUserSize_first_valid (pre post : List Line) (line : Line) (n : Nat)
    (hpre : ∀ e ∈ pre, fitsSizeT e = none ∧ startsWithMinus e = false)
    (hline : fitsSizeT line = some n) :
    (getUserSize (pre ++ line :: post)).value = n ∧
      (getUserSize (pre ++ line :: post)).rest = post ∧
      (getUserSize (pre ++ line :: post)).out =
        (pre.map fun e => [sizePrompt, sizeReject e]).flatten ++ [sizePrompt, .logSize n] ∧
      0 < n ∧ n < SIZE_RANGE := by
  have h := getUserSizeLoop_first_accept pre post line n
    (fun e he m => sizeStep_of_not_fitsSizeT (hpre e he).1 (hpre e he).2 m)
    (sizeStep_of_fitsSizeT hline)
  have hv := fitsSizeT_eq_some.1 hline
  obtain ⟨ds, w, -, -, hpos⟩ := numeral_of_validSizeLine hv.1
  refine ⟨?_, ?_, ?_, hpos, hv.2⟩
  · simp [getUserSize, h.1]
  · simp [getUserSize, h.2.1]
  · simp [getUserSize, h.1, h.2.2]

/-- Witness for C1 (amended): an empty line, a word, the number 0, a number
followed by a letter and a number too large for `size_t` are each rejected
with a new prompt; the padded line ` 7 ` is accepted. -/
theorem getUserSize_first_valid_witness :
    (getUserSize ["".toList, "abc".toList, "0".toList, "12 x".toList,
        "18446744073709551616".toList, " 7 ".toList, "9".toList]).value = 7 ∧
      (getUserSize ["".toList, "abc".toList, "0".toList, "12 x".toList,
        "18446744073709551616".toList, " 7 ".toList, "9".toList]).rest = ["9".toList] ∧
      (getUserSize ["".toList, "abc".toList, "0".toList, "12 x".toList,
        "18446744073709551616".toList, " 7 ".toList, "9".toList]).out =
        [sizePrompt, sizeErrPositive, sizePrompt, sizeErrPositive, sizePrompt, sizeErrPositive,
          sizePrompt, sizeErrSingle, sizePrompt, sizeErrPositive, sizePrompt, .logSize 7] := by
  have h := getUserSize_first_valid
    ["".toList, "abc".toList, "0".toList, "12 x".toList, "18446744073709551616".toList]
    ["9".toList] " 7 ".toList 7 (by decide) (by decide)
  exact ⟨h.1, h.2.1, h.2.2.1.trans (by decide)⟩

/-! ## The loops of `getUserVectorInt` and `getUserVectorDouble` -/

section vectors

variable {α : Type} (extract : List Char → Option (α × List Char))

theorem fillFrom_of_leading {n : Nat} {ss : List Char} {vals : List α}
    (h : leadingNumbers extract n ss = some vals) (vec : List α) :
    fillFrom extract n ss vec = vec ++ vals ∧ vals.length = n := by
  induction n generalizing ss vals vec with
  | zero =>
    simp only [leadingNumbers, Option.some.injEq] at h
    subst h
    simp [fillFrom]
  | succ n ih =>
    unfold leadingNumbers at h
    unfold fillFrom
    cases hx : extract ss with
    | none => simp [hx] at h
    | some p =>
      simp only [hx] at h
      cases hl : leadingNumbers extract n p.2 with
      | none => simp [hl] at h
      | some tl =>
        simp only [hl, Option.some.injEq] at h
        subst h
        have := ih hl (vec ++ [p.1])
        simp [this.1, this.2]

theorem fillFrom_of_not_leading {n : Nat} {ss : List Char}
    (h : leadingNumbers extract n ss = none) (vec : List α) :
    (fillFrom extract n ss vec).length < vec.length + n := by
  induction n generalizing ss vec with
  | zero => simp [leadingNumbers] at h
  | succ n ih =>
    unfold leadingNumbers at h
    unfold fillFrom
    cases hx : extract ss with
    | none => simp
    | some p =>
      simp only [hx] at h
      cases hl : leadingNumbers extract n p.2 with
      | none =>
        have := ih hl (vec ++ [p.1])
        simp only [List.length_append, List.length_singleton] at this
        simp only
        omega
      | some tl => simp [hl] at h

theorem leadingNumbers_take {n k : Nat} {ss : List Char} {vals : List α}
    (h : leadingNumbers extract (n + k) ss = some vals) :
    leadingNumbers extract n ss = some (vals.take n) := by
  induction n generalizing ss vals with
  | zero => simp [leadingNumbers]
  | succ n ih =>
    rw [Nat.add_right_comm] at h
    unfold leadingNumbers at h ⊢
    cases hx : extract ss with
    | none => simp [hx] at h
    | some p =>
      simp only [hx] at h ⊢
      cases hl : leadingNumbers extract (n + k) p.2 with
      | none => simp [hl] at h
      | some tl =>
        simp only [hl, Option.some.injEq] at h
        subst h
        simp [ih hl]

theorem getUserVectorLoop_done (size : Nat) (kind name : String) (stdin : List Line)
    (vec : List α) (h : ¬ vec.length < size) :
    getUserVectorLoop extract size kind name stdin vec = ⟨vec, stdin, []⟩ := by
  cases stdin <;> simp [getUserVectorLoop, h]

theorem getUserVectorLoop_accept {size : Nat} (hsize : 0 < size) (kind name : String)
    {line : Line} {vals : List α} (h : leadingNumbers extract size line = some vals)
    (rest : List Line) :
    getUserVectorLoop extract size kind name (line :: rest) [] =
      ⟨vals, rest, [.coutPrompt size kind name, .logInput name line]⟩ := by
  have hf := fillFrom_of_leading extract h []
  have hlen : ¬ ([] ++ vals).length < size := by simp [hf.2]
  simp only [getUserVectorLoop, List.length_nil, hsize, if_true, Nat.sub_zero, hf.1, hlen,
    if_false, getUserVectorLoop_done extract size kind name rest _ hlen]
  simp

theorem getUserVectorLoop_reject {size : Nat} (kind name : String)
    {line : Line} (h : leadingNumbers extract size line = none) (rest : List Line) :
    getUserVectorLoop extract size kind name (line :: rest) [] =
      ⟨(getUserVectorLoop extract size kind name rest []).value,
       (getUserVectorLoop extract size kind name rest []).rest,
       .coutPrompt size kind name :: .logInput name line :: vecErr ::
         (getUserVectorLoop extract size kind name rest []).out⟩ := by
  have hf := fillFrom_of_not_leading extract h []
  have hsize : 0 < size := by
    cases size with
    | zero => simp [leadingNumbers] at h
    | succ k => exact Nat.succ_pos k
  simp only [List.length_nil, Nat.zero_add] at hf
  simp only [getUserVectorLoop, List.length_nil, hsize, if_true, Nat.sub_zero, hf]

theorem getUserVectorLoop_prompts_first {size : Nat} (hsize : 0 < size) (kind name : String)
    (stdin : List Line) :
    (getUserVectorLoop extract size kind name stdin []).out.head? =
      some (.coutPrompt size kind name) := by
  cases stdin with
  | nil => simp [getUserVectorLoop, hsize]
  | cons line rest =>
    simp only [getUserVectorLoop, List.length_nil, hsize, if_true]
    split <;> rfl

theorem getUserVectorLoop_first_full {size : Nat} (hsize : 0 < size) (kind name : String)
    (pre post : List Line) (line : Line) (vals : List α)
    (hpre : ∀ e ∈ pre, leadingNumbers extract size e = none)
    (hline : leadingNumbers extract size line = some vals) :
    (getUserVectorLoop extract size kind name (pre ++ line :: post) []).value = vals ∧
      (getUserVectorLoop extract size kind name (pre ++ line :: post) []).rest = post := by
  induction pre with
  | nil => simp [getUserVectorLoop_accept extract hsize kind name hline post]
  | cons e pre ih =>
    have hrec := ih fun x hx => hpre x (List.mem_cons_of_mem _ hx)
    rw [List.cons_append,
      getUserVectorLoop_reject extract kind name (hpre e (List.mem_cons_self _ _))]
    exact hrec

end vectors

/-- C2: for every size `n ≥ 1`, when some line begins with at least `n`
parseable numbers and no earlier line does, `getUserVectorInt` and
`getUserVectorDouble` return exactly the first `n` numbers of that line, in
order (so a vector of length `n`, with nothing from the earlier lines), and
leave unread the lines after it. -/
theorem getUserVector_first_full (n : Nat) (hn : 1 ≤ n) (name : String)
    (pre post : List Line) (line : Line) :
    (∀ vals : List Int, (∀ e ∈ pre, leadingNumbers extractInt64 n e = none) →
      leadingNumbers extractInt64 n line = some vals →
      (getUserVectorInt n name (pre ++ line :: post)).value = vals ∧ vals.length = n ∧
        (getUserVectorInt n name (pre ++ line :: post)).rest = post) ∧
    (∀ (D : Type) (extractDouble : List Char → Option (D × List Char)) (vals : List D),
      (∀ e ∈ pre, leadingNumbers extractDouble n e = none) →
      leadingNumbers extractDouble n line = some vals →
      (getUserVectorDouble extractDouble n name (pre ++ line :: post)).value = vals ∧
        vals.length = n ∧
        (getUserVectorDouble extractDouble n name (pre ++ line :: post)).rest = post) := by
  constructor
  · intro vals hpre hline
    have h := getUserVectorLoop_first_full extractInt64 hn "integers" name pre post line vals
      hpre hline
    exact ⟨h.1, (fillFrom_of_leading extractInt64 hline []).2, h.2⟩
  · intro D extractDouble vals hpre hline
    have h := getUserVectorLoop_first_full extractDouble hn "doubles" name pre post line vals
      hpre hline
    exact ⟨h.1, (fillFrom_of_leading extractDouble hline []).2, h.2⟩

/-- Witness for C2: with size 3 the short lines `1 2` and `7 x 8 9` are passed
over and the vector is the first three numbers of `-4 5 +6 7`. -/
theorem getUserVector_first_full_witness :
    (getUserVectorInt 3 "plaintext1"
        ["1 2".toList, "7 x 8 9".toList, "-4 5 +6 7".toList, "0 0 0".toList]).value = [-4, 5, 6] ∧
      (getUserVectorInt 3 "plaintext1"
        ["1 2".toList, "7 x 8 9".toList, "-4 5 +6 7".toList, "0 0 0".toList]).rest =
        ["0 0 0".toList] ∧
      (getUserVectorDouble extractWhole 3 "plaintext1"
        ["1 2".toList, "7 x 8 9".toList, "-4 5 +6 7".toList, "0 0 0".toList]).value =
        [-4, 5, 6] := by
  have h := getUserVector_first_full 3 (by decide) "plaintext1"
    ["1 2".toList, "7 x 8 9".toList] ["0 0 0".toList] "-4 5 +6 7".toList
  have h1 := h.1 [-4, 5, 6] (by decide) (by decide)
  have h2 := h.2 ℚ extractWhole [-4, 5, 6] (by decide) (by decide)
  exact ⟨h1.1, h1.2.2, h2.1⟩

/-- C3, as stated, fails: with size 2 the line `1 2 3` (more than 2 numbers)
and the line `1 2 x` (a non-numeric token) are not exactly 2 space-separated
numbers, yet each is accepted at once, without error message or new prompt. -/
theorem getUserVectorInt_accepts_longer :
    exactlyNumbers 2 "1 2 3".toList = false ∧ exactlyNumbers 2 "1 2 x".toList = false ∧
      (getUserVectorInt 2 "plaintext1" ["1 2 3".toList]).value = [1, 2] ∧
      (getUserVectorInt 2 "plaintext1" ["1 2 3".toList]).out =
        [.coutPrompt 2 "integers" "plaintext1", .logInput "plaintext1" "1 2 3".toList] ∧
      (getUserVectorInt 2 "plaintext1" ["1 2 x".toList]).value = [1, 2] ∧
      (getUserVectorInt 2 "plaintext1" ["1 2 x".toList]).out =
        [.coutPrompt 2 "integers" "plaintext1", .logInput "plaintext1" "1 2 x".toList] := by
  decide

/-- C3 (amended): for every size `n ≥ 1`, a line that begins with fewer than
`n` parseable numbers is rejected by `getUserVectorInt` and
`getUserVectorDouble`: the error message is printed, the user is prompted
again, and the result is what the remaining input gives.  A line that begins
with `n` numbers is accepted with those numbers whatever follows them on the
line; in particular a line that begins with `n + k` numbers is accepted
with its first `n`. -/
theorem getUserVector_rejects_short (n : Nat) (hn : 1 ≤ n) (name : String)
    (line : Line) (rest : List Line) :
    ((leadingNumbers extractInt64 n line = none →
        (getUserVectorInt n name (line :: rest)).value = (getUserVectorInt n name rest).value ∧
        (getUserVectorInt n name (line :: rest)).out =
          .coutPrompt n "integers" name :: .logInput name line :: vecErr ::
            (getUserVectorInt n name rest).out ∧
        (getUserVectorInt n name rest).out.head? = some (.coutPrompt n "integers" name)) ∧
      (∀ k vals, leadingNumbers extractInt64 (n + k) line = some vals →
        (getUserVectorInt n name (line :: rest)).value = vals.take n ∧
        (getUserVectorInt n name (line :: rest)).out =
          [.coutPrompt n "integers" name, .logInput name line])) ∧
    (∀ (D : Type) (extractDouble : List Char → Option (D × List Char)),
      (leadingNumbers extractDouble n line = none →
        (getUserVectorDouble extractDouble n name (line :: rest)).value =
          (getUserVectorDouble extractDouble n name rest).value ∧
        (getUserVectorDouble extractDouble n name (line :: rest)).out =
          .coutPrompt n "doubles" name :: .logInput name line :: vecErr ::
            (getUserVectorDouble extractDouble n name rest).out ∧
        (getUserVectorDouble extractDouble n name rest).out.head? =
          some (.coutPrompt n "doubles" name)) ∧
      (∀ k vals, leadingNumbers extractDouble (n + k) line = some vals →
        (getUserVectorDouble extractDouble n name (line :: rest)).value = vals.take n ∧
        (getUserVectorDouble extractDouble n name (line :: rest)).out =
          [.coutPrompt n "doubles" name, .logInput name line])) := by
  refine ⟨⟨?_, ?_⟩, fun D extractDouble => ⟨?_, ?_⟩⟩
  · intro h
    unfold getUserVectorInt
    rw [getUserVectorLoop_reject extractInt64 "integers" name h]
    exact ⟨rfl, rfl, getUserVectorLoop_prompts_first extractInt64 hn "integers" name rest⟩
  · intro k vals h
    unfold getUserVectorInt
    rw [getUserVectorLoop_accept extractInt64 hn "integers" name
      (leadingNumbers_take extractInt64 h)]
    exact ⟨rfl, rfl⟩
  · intro h
    unfold getUserVectorDouble
    rw [getUserVectorLoop_reject extractDouble "doubles" name h]
    exact ⟨rfl, rfl, getUserVectorLoop_prompts_first extractDouble hn "doubles" name rest⟩
  · intro k vals h
    unfold getUserVectorDouble
    rw [getUserVectorLoop_accept extractDouble hn "doubles" name
      (leadingNumbers_take extractDouble h)]
    exact ⟨rfl, rfl⟩

/-- Witness for C3 (amended): with size 2, `1 x` is rejected with a new
prompt, and `5 6 7` is accepted as `[5, 6]`. -/
theorem getUserVector_rejects_short_witness :
    (getUserVectorInt 2 "plaintext1" ["1 x".toList, "3 4".toList]).value = [3, 4] ∧
      (getUserVectorInt 2 "plaintext1" ["1 x".toList, "3 4".toList]).out =
        [.coutPrompt 2 "integers" "plaintext1", .logInput "plaintext1" "1 x".toList, vecErr,
          .coutPrompt 2 "integers" "plaintext1", .logInput "plaintext1" "3 4".toList] ∧
      (getUserVectorInt 2 "plaintext1" ["5 6 7".toList, "3 4".toList]).value = [5, 6] := by
  have h := (getUserVector_rejects_short 2 (by decide) "plaintext1" "1 x".toList
    ["3 4".toList]).1.1 (by decide)
  have h2 := (getUserVector_rejects_short 2 (by decide) "plaintext1" "5 6 7".toList
    ["3 4".toList]).1.2 1 [5, 6, 7] (by decide)
  exact ⟨h.1.trans (by decide), h.2.1.trans (by decide), h2.1.trans (by decide)⟩

/-! ## Runs and their library calls -/

theorem calls_andThen (a b : Run) :
    (a.andThen b).calls = a.calls ++ (if a.halt = none then b.calls else []) := by
  unfold Run.andThen Run.calls
  cases h : a.halt with
  | none => simp
  | some x => simp

theorem calls_emit_andThen (evs : List Ev) (h : evs.filterMap callOf = []) (b : Run) :
    ((emit evs).andThen b).calls = b.calls := by
  rw [calls_andThen]
  simp [emit, Run.calls, h]

theorem calls_libCall_andThen (throws : Call → Option String) (c : Call) (b : Run) :
    ((libCall throws c).andThen b).calls.head? = some c := by
  rw [calls_andThen]
  simp [libCall, Run.calls, callOf]

theorem halt_libCall_andThen {throws : Call → Option String} {c : Call} {what : String}
    (h : throws c = some what) (b : Run) :
    ((libCall throws c).andThen b).halt = some (.exception what) ∧
      ((libCall throws c).andThen b).calls = [c] := by
  simp [libCall, Run.andThen, Run.calls, callOf, h]

theorem getUserSizeLoop_no_call (stdin : List Line) (size : Nat) :
    (getUserSizeLoop stdin size).out.filterMap callOf = [] := by
  induction stdin generalizing size with
  | nil =>
    unfold getUserSizeLoop
    split <;> simp [sizePrompt, callOf]
  | cons line rest ih =>
    unfold getUserSizeLoop
    split
    · split <;> simp [sizePrompt, sizeErrSingle, sizeErrPositive, callOf, ih]
    · simp

theorem getUserSize_no_call (stdin : List Line) :
    (getUserSize stdin).out.filterMap callOf = [] := by
  simp [getUserSize, getUserSizeLoop_no_call, callOf]

theorem getUserVectorLoop_no_call {α : Type} (extract : List Char → Option (α × List Char))
    (size : Nat) (kind name : String) (stdin : List Line) (vec : List α) :
    (getUserVectorLoop extract size kind name stdin vec).out.filterMap callOf = [] := by
  induction stdin generalizing vec with
  | nil =>
    unfold getUserVectorLoop
    split <;> simp [callOf]
  | cons line rest ih =>
    unfold getUserVectorLoop
    split
    · simp only
      split <;> simp [vecErr, callOf, ih]
    · simp

theorem bfvInput_no_call (stdin : List Line) :
    (bfvHeader ++ (bfvInput stdin).out).filterMap callOf = [] := by
  simp [bfvInput, bfvHeader, getUserSize_no_call, getUserVectorInt, getUserVectorLoop_no_call,
    callOf]

theorem ckksInput_no_call (extractDouble : List Char → Option (ℚ × List Char))
    (stdin : List Line) :
    (ckksHeader ++ (ckksInput extractDouble stdin).out).filterMap callOf = [] := by
  simp [ckksInput, ckksHeader, getUserSize_no_call, getUserVectorDouble,
    getUserVectorLoop_no_call, callOf]

/-- The first library call of `demonstrateBFV` is `encode` on `plaintext1` as
read, whatever its length; if it throws, the routine ends there. -/
theorem demonstrateBFV_first_call (lib : BFVLibrary) (stdin : List Line) :
    (demonstrateBFV lib stdin).calls.head? = some (.encode (bfvInput stdin).plaintext1 "ptxt1") ∧
      ∀ what, lib.throws (.encode (bfvInput stdin).plaintext1 "ptxt1") = some what →
        (demonstrateBFV lib stdin).halt = some (.exception what) ∧
        (demonstrateBFV lib stdin).calls = [.encode (bfvInput stdin).plaintext1 "ptxt1"] := by
  unfold demonstrateBFV bfvBody
  simp only [Run.seq]
  constructor
  · rw [calls_emit_andThen _ (bfvInput_no_call stdin),
      calls_emit_andThen _ (by simp [callOf])]
    exact calls_libCall_andThen _ _ _
  · intro what h
    have h2 := halt_libCall_andThen h
    constructor
    · simp only [Run.andThen, emit]
      exact (h2 _).1
    · rw [calls_emit_andThen _ (bfvInput_no_call stdin),
        calls_emit_andThen _ (by simp [callOf])]
      exact (h2 _).2

/-- The first library call of `demonstrateCKKS` is `encode` on `plaintext1`
as read, whatever its length; if it throws, the routine ends there. -/
theorem demonstrateCKKS_first_call (extractDouble : List Char → Option (ℚ × List Char))
    (lib : CKKSLibrary) (stdin : List Line) :
    (demonstrateCKKS extractDouble lib stdin).calls.head? =
        some (.encode_real (ckksInput extractDouble stdin).plaintext1 "ptxt1") ∧
      ∀ what,
        lib.throws (.encode_real (ckksInput extractDouble stdin).plaintext1 "ptxt1") = some what →
        (demonstrateCKKS extractDouble lib stdin).halt = some (.exception what) ∧
        (demonstrateCKKS extractDouble lib stdin).calls =
          [.encode_real (ckksInput extractDouble stdin).plaintext1 "ptxt1"] := by
  unfold demonstrateCKKS ckksBody
  simp only [Run.seq]
  constructor
  · rw [calls_emit_andThen _ (ckksInput_no_call extractDouble stdin),
      calls_emit_andThen _ (by simp [callOf])]
    exact calls_libCall_andThen _ _ _
  · intro what h
    have h2 := halt_libCall_andThen h
    constructor
    · simp only [Run.andThen, emit]
      exact (h2 _).1
    · rw [calls_emit_andThen _ (ckksInput_no_call extractDouble stdin),
        calls_emit_andThen _ (by simp [callOf])]
      exact (h2 _).2

/-! ## Lengths above the ring dimension -/

theorem bfvInput_of_lines {line l1 : Line} {n : Nat} {vals : List Int} (rest : List Line)
    (hline : fitsSizeT line = some n) (h1 : leadingNumbers extractInt64 n l1 = some vals) :
    (bfvInput (line :: l1 :: rest)).vector_size = n ∧
      (bfvInput (line :: l1 :: rest)).plaintext1 = vals := by
  have hacc := sizeStep_of_fitsSizeT hline
  have hs := getUserSize_accept hacc (l1 :: rest)
  have hv : (getUserVectorInt n "plaintext1" (l1 :: rest)) =
      ⟨vals, rest, [.coutPrompt n "integers" "plaintext1", .logInput "plaintext1" l1]⟩ :=
    getUserVectorLoop_accept extractInt64 (sizeStep_accept_pos hacc) "integers" "plaintext1" h1
      rest
  simp [bfvInput, hs.1, hs.2, hv]

theorem ckksInput_of_lines (extractDouble : List Char → Option (ℚ × List Char))
    {line l1 : Line} {n : Nat} {vals : List ℚ} (rest : List Line)
    (hline : fitsSizeT line = some n) (h1 : leadingNumbers extractDouble n l1 = some vals) :
    (ckksInput extractDouble (line :: l1 :: rest)).vector_size = n ∧
      (ckksInput extractDouble (line :: l1 :: rest)).plaintext1 = vals := by
  have hacc := sizeStep_of_fitsSizeT hline
  have hs := getUserSize_accept hacc (l1 :: rest)
  have hv : (getUserVectorDouble extractDouble n "plaintext1" (l1 :: rest)) =
      ⟨vals, rest, [.coutPrompt n "doubles" "plaintext1", .logInput "plaintext1" l1]⟩ :=
    getUserVectorLoop_accept extractDouble (sizeStep_accept_pos hacc) "doubles" "plaintext1" h1
      rest
  simp [ckksInput, hs.1, hs.2, hv]

theorem extractInt64_seven (t : List Char) (ht : t = [] ∨ ∃ u, t = ' ' :: u) :
    extractInt64 (' ' :: '7' :: t) = some (7, t) := by
  have hsp : (' ' :: '7' :: t).dropWhile isspace = '7' :: t := by
    simp [List.dropWhile, isspace]
  have hspan := span_digits_spaces ['7'] (t.takeWhile isspace)
    (by simp [isdigit]) (fun c hc => List.mem_takeWhile_imp hc)
  have hd : (('7' :: t).takeWhile isdigit = ['7']) ∧ (('7' :: t).dropWhile isdigit = t) := by
    rcases ht with rfl | ⟨u, rfl⟩
    · simp [List.takeWhile, List.dropWhile, isdigit]
    · simp [List.takeWhile, List.dropWhile, isdigit]
  unfold extractInt64
  simp only [hsp]
  have hsg : takeSign ('7' :: t) = (false, '7' :: t) := by simp [takeSign]
  rw [hsg]
  simp only [hd.1, hd.2]
  simp [digitsVal, INT64_BOUND]

theorem leadingNumbers_sevens (k : Nat) :
    leadingNumbers extractInt64 k (List.replicate k [' ', '7']).flatten =
      some (List.replicate k 7) := by
  induction k with
  | zero => simp [leadingNumbers]
  | succ k ih =>
    have ht : (List.replicate k [' ', '7']).flatten = [] ∨
        ∃ u, (List.replicate k [' ', '7']).flatten = ' ' :: u := by
      cases k with
      | zero => exact Or.inl rfl
      | succ k => exact Or.inr ⟨'7' :: (List.replicate k [' ', '7']).flatten, rfl⟩
    simp only [List.replicate_succ, List.flatten_cons, List.cons_append, List.nil_append,
      leadingNumbers, extractInt64_seven _ ht, ih]

theorem leadingNumbers_whole_sevens (k : Nat) :
    leadingNumbers extractWhole k (List.replicate k [' ', '7']).flatten =
      some (List.replicate k 7) := by
  induction k with
  | zero => simp [leadingNumbers]
  | succ k ih =>
    have ht : (List.replicate k [' ', '7']).flatten = [] ∨
        ∃ u, (List.replicate k [' ', '7']).flatten = ' ' :: u := by
      cases k with
      | zero => exact Or.inl rfl
      | succ k => exact Or.inr ⟨'7' :: (List.replicate k [' ', '7']).flatten, rfl⟩
    simp only [List.replicate_succ, List.flatten_cons, List.cons_append, List.nil_append,
      leadingNumbers, extractWhole, extractInt64_seven _ ht, ih, Option.map_some']
    simp

theorem exactLibrary_throws (slots : Nat) (values : List Int) (dst : String)
    (h : slots < values.length) :
    (exactLibrary slots).throws (.encode values dst) = some "values_size is too large" := by
  simp [exactLibrary, h]

/-- C4, as stated, fails: the length 8193 exceeds the ring dimension 8192 and
`getUserSize` returns it. -/
theorem getUserSize_accepts_8193 :
    poly_modulus_degree < 8193 ∧ (getUserSize ["8193".toList]).value = 8193 := by
  decide

/-- C4 (amended): the program itself never compares a length with the ring
dimension.  For every entered length `n` with `8192 < n < 2 ^ 64`,
`getUserSize` returns `n`; and once a line beginning with `n` numbers
follows, the first library call of `demonstrateBFV` and of `demonstrateCKKS`
is `encode` on that vector of length `n`.  If that call throws, the routine
ends there with the exception, having made no other library call. -/
theorem length_above_ring_dimension_reaches_encode (line l1 : Line) (rest : List Line) (n : Nat)
    (hline : fitsSizeT line = some n) (_hbig : poly_modulus_degree < n) :
    (getUserSize (line :: l1 :: rest)).value = n ∧
    (∀ (lib : BFVLibrary) (vals : List Int), leadingNumbers extractInt64 n l1 = some vals →
      vals.length = n ∧
      (demonstrateBFV lib (line :: l1 :: rest)).calls.head? = some (.encode vals "ptxt1") ∧
      ∀ what, lib.throws (.encode vals "ptxt1") = some what →
        (demonstrateBFV lib (line :: l1 :: rest)).halt = some (.exception what) ∧
        (demonstrateBFV lib (line :: l1 :: rest)).calls = [.encode vals "ptxt1"]) ∧
    (∀ (extractDouble : List Char → Option (ℚ × List Char)) (lib : CKKSLibrary) (vals : List ℚ),
      leadingNumbers extractDouble n l1 = some vals →
      vals.length = n ∧
      (demonstrateCKKS extractDouble lib (line :: l1 :: rest)).calls.head? =
        some (.encode_real vals "ptxt1") ∧
      ∀ what, lib.throws (.encode_real vals "ptxt1") = some what →
        (demonstrateCKKS extractDouble lib (line :: l1 :: rest)).halt = some (.exception what) ∧
        (demonstrateCKKS extractDouble lib (line :: l1 :: rest)).calls =
          [.encode_real vals "ptxt1"]) := by
  refine ⟨?_, ?_, ?_⟩
  · exact (getUserSize_accept (sizeStep_of_fitsSizeT hline) (l1 :: rest)).1
  · intro lib vals h1
    have hin := bfvInput_of_lines rest hline h1
    have hfirst := demonstrateBFV_first_call lib (line :: l1 :: rest)
    rw [hin.2] at hfirst
    exact ⟨(fillFrom_of_leading extractInt64 h1 []).2, hfirst.1, hfirst.2⟩
  · intro extractDouble lib vals h1
    have hin := ckksInput_of_lines extractDouble rest hline h1
    have hfirst := demonstrateCKKS_first_call extractDouble lib (line :: l1 :: rest)
    rw [hin.2] at hfirst
    exact ⟨(fillFrom_of_leading extractDouble h1 []).2, hfirst.1, hfirst.2⟩

/-- Witness for C4 (amended): the size line `8193` followed by a line of 8193
numbers.  `getUserSize` returns 8193 and `demonstrateBFV` calls `encode` on
the vector of 8193 values; with a library of 8192 slots that call throws and
ends the routine.  `demonstrateCKKS` likewise starts with `encode` on the
8193 values. -/
theorem length_above_ring_dimension_reaches_encode_witness :
    (getUserSize ["8193".toList, (List.replicate 8193 [' ', '7']).flatten]).value = 8193 ∧
      (List.replicate 8193 (7 : Int)).length = 8193 ∧
      (demonstrateBFV (exactLibrary 8192)
        ["8193".toList, (List.replicate 8193 [' ', '7']).flatten]).calls =
        [.encode (List.replicate 8193 7) "ptxt1"] ∧
      (demonstrateBFV (exactLibrary 8192)
        ["8193".toList, (List.replicate 8193 [' ', '7']).flatten]).halt =
        some (.exception "values_size is too large") ∧
      (demonstrateCKKS extractWhole (exactRealLibrary 4096)
        ["8193".toList, (List.replicate 8193 [' ', '7']).flatten]).calls.head? =
        some (.encode_real (List.replicate 8193 7) "ptxt1") := by
  have h := length_above_ring_dimension_reaches_encode "8193".toList
    (List.replicate 8193 [' ', '7']).flatten [] 8193 (by decide) (by decide)
  have hk := h.2.2 extractWhole (exactRealLibrary 4096) (List.replicate 8193 7)
    (leadingNumbers_whole_sevens 8193)
  have hb := h.2.1 (exactLibrary 8192) (List.replicate 8193 7) (leadingNumbers_sevens 8193)
  have ht := hb.2.2 "values_size is too large"
    (exactLibrary_throws 8192 _ "ptxt1" (by rw [List.length_replicate]; exact Nat.lt_succ_self _))
  exact ⟨h.1, hb.1, ht.2, ht.1, hk.2.1⟩

/-! ## Length 0 and the end of input -/

theorem getUserSizeLoop_zero_iff (stdin : List Line) :
    ((getUserSizeLoop stdin 0).value = 0 ↔ ∀ line ∈ stdin, ∀ n, sizeStep line ≠ .accept n) ∧
      ((getUserSizeLoop stdin 0).value = 0 → (getUserSizeLoop stdin 0).rest = []) := by
  induction stdin with
  | nil => simp [getUserSizeLoop]
  | cons line rest ih =>
    by_cases hacc : ∃ n, sizeStep line = .accept n
    · obtain ⟨n, hn⟩ := hacc
      have hpos := sizeStep_accept_pos hn
      have h := getUserSizeLoop_accept hn rest
      rw [h.1]
      constructor
      · constructor
        · intro h0; omega
        · intro hall; exact absurd hn (hall line (List.mem_cons_self _ _) n)
      · intro h0; omega
    · have hrej : ∀ n, sizeStep line ≠ .accept n := fun n hn => hacc ⟨n, hn⟩
      have h := getUserSizeLoop_reject hrej rest
      rw [h.1, h.2.1]
      constructor
      · rw [ih.1]
        constructor
        · intro hall l hl
          rcases List.mem_cons.1 hl with rfl | hl
          · exact hrej
          · exact hall l hl
        · intro hall l hl
          exact hall l (List.mem_cons_of_mem _ hl)
      · exact ih.2

/-- C5, as stated, fails: at the end of input `getUserSize` returns 0, and
`demonstrateBFV` goes on to its encode and encrypt calls with
`vector_size = 0`. -/
theorem getUserSize_zero_at_eof :
    (getUserSize []).value = 0 ∧ (bfvInput []).vector_size = 0 ∧
      (demonstrateBFV (exactLibrary 8192) []).calls.take 5 =
        [.encode [] "ptxt1", .encode [] "ptxt2", .to_string "ptxt1",
          .encrypt "ptxt1" "ctxt1", .encrypt "ptxt2" "ctxt2"] := by
  decide

/-- C5 (amended): a length of 0 that is entered is rejected: every line
`getUserSize` accepts yields a positive integer.  `getUserSize` returns 0
exactly when the input ends before any line is accepted, and no input is then
left.  The `vector_size` of `demonstrateBFV` and of `demonstrateCKKS` is the
value `getUserSize` returns, so it is positive whenever a size line was
accepted. -/
theorem getUserSize_zero_iff_input_ends (stdin : List Line) :
    (∀ line n, sizeStep line = .accept n → 0 < n) ∧
    ((getUserSize stdin).value = 0 ↔ ∀ line ∈ stdin, ∀ n, sizeStep line ≠ .accept n) ∧
    ((getUserSize stdin).value = 0 → (getUserSize stdin).rest = []) ∧
    (bfvInput stdin).vector_size = (getUserSize stdin).value ∧
    (∀ extractDouble : List Char → Option (ℚ × List Char),
      (ckksInput extractDouble stdin).vector_size = (getUserSize stdin).value) := by
  have hloop := getUserSizeLoop_zero_iff stdin
  have hval : (getUserSize stdin).value = (getUserSizeLoop stdin 0).value := rfl
  have hrest : (getUserSize stdin).rest = (getUserSizeLoop stdin 0).rest := rfl
  refine ⟨fun line n h => sizeStep_accept_pos h, ?_, ?_, rfl, fun _ => rfl⟩
  · rw [hval]
    exact hloop.1
  · intro h0
    rw [hrest]
    exact hloop.2 (hval ▸ h0)

/-- Witness for C5 (amended): the input `0`, `abc` ends without an accepted
line, so `getUserSize` returns 0 with nothing left to read; on the input `0`,
`3` the entered 0 is rejected and the size is 3. -/
theorem getUserSize_zero_iff_input_ends_witness :
    (getUserSize ["0".toList, "abc".toList]).value = 0 ∧
      (getUserSize ["0".toList, "abc".toList]).rest = [] ∧
      sizeStep "0".toList = .notPositive ∧
      (bfvInput ["0".toList, "3".toList]).vector_size = 3 := by
  have h := getUserSize_zero_iff_input_ends ["0".toList, "abc".toList]
  have h0 : (getUserSize ["0".toList, "abc".toList]).value = 0 := h.2.1.2 (by
    intro line hl n hacc
    have hstep : sizeStep line = .notPositive := by
      rcases List.mem_cons.1 hl with rfl | hl
      · decide
      · rcases List.mem_cons.1 hl with rfl | hl
        · decide
        · cases hl
    rw [hstep] at hacc
    cases hacc)
  exact ⟨h0, h.2.2.1 h0, by decide,
    (getUserSize_zero_iff_input_ends ["0".toList, "3".toList]).2.2.2.1.trans (by decide)⟩

/-- C6 (the code at the failing input): the input ends right after the size
line `4`.  Both plaintexts come back empty while `vector_size` is 4;
`demonstrateBFV` does not stop but encodes, encrypts, adds, decrypts and
decodes, and then evaluates `plaintext1[0]` on the empty vector.
`demonstrateCKKS` does the same and reaches `plaintext1[0]` in its
verification loop, after every homomorphic operation. -/
theorem demonstrate_eof_after_size_out_of_range :
    (bfvInput ["4".toList]).vector_size = 4 ∧ (bfvInput ["4".toList]).plaintext1 = [] ∧
      (bfvInput ["4".toList]).plaintext2 = [] ∧
      (demonstrateBFV (exactLibrary 8192) ["4".toList]).halt =
        some (.outOfRange "plaintext1" 0 0) ∧
      (demonstrateBFV (exactLibrary 8192) ["4".toList]).calls =
        [.encode [] "ptxt1", .encode [] "ptxt2", .to_string "ptxt1",
          .encrypt "ptxt1" "ctxt1", .encrypt "ptxt2" "ctxt2",
          .invariant_noise_budget "ctxt1", .invariant_noise_budget "ctxt2",
          .add "ctxt1" "ctxt2" "ctxt_sum", .decrypt "ctxt_sum" "ptxt_sum",
          .decode "ptxt_sum" "sum_result"] ∧
      (demonstrateCKKS extractWhole (exactRealLibrary 4096) ["4".toList]).halt =
        some (.outOfRange "plaintext1" 0 0) ∧
      (demonstrateCKKS extractWhole (exactRealLibrary 4096) ["4".toList]).calls.length = 28 := by
  decide

/-! ## `main` -/

theorem verifyFrom_spec (tolerance : ℚ) (expected : List ℚ) :
    ∀ (i : Nat) (actual : List ℚ), expected.length ≤ actual.length →
      ∃ verdict logged, verifyFrom i expected actual tolerance = .ok (verdict, logged) ∧
        (verdict = true ↔
          ∀ j, j < expected.length → |expected.getD j 0 - actual.getD j 0| ≤ tolerance) := by
  induction expected with
  | nil => intro i actual _; exact ⟨true, [], rfl, by simp⟩
  | cons e es ih =>
    intro i actual hlen
    cases actual with
    | nil => simp at hlen
    | cons a as =>
      have hlen2 : es.length ≤ as.length := by simpa using hlen
      by_cases hgt : |e - a| > tolerance
      · refine ⟨false, [.logVerifyFail i e a], by simp [verifyFrom, hgt], ?_⟩
        simp only [Bool.false_eq_true, false_iff, not_forall]
        exact ⟨0, by simp, by simpa using hgt⟩
      · obtain ⟨v, l, hv, hiff⟩ := ih (i + 1) as hlen2
        refine ⟨v, l, by simp [verifyFrom, hgt, hv], ?_⟩
        rw [hiff]
        constructor
        · intro h j hj
          cases j with
          | zero => simpa using not_lt.1 hgt
          | succ j => simpa using h j (by simpa using hj)
        · intro h j hj
          simpa using h (j + 1) (by simpa using hj)

/-- C8: over exact arithmetic `verifyVectors(expected, actual, tolerance)`
always returns, and returns true if and only if `actual` has at least as many
elements as `expected` and `|expected[i] - actual[i]| <= tolerance` for every
index `i < expected.size()`: a difference equal to the tolerance passes and
the elements of `actual` beyond `expected.size()` play no part. -/
theorem verifyVectors_iff (expected actual : List ℚ) (tolerance : ℚ) :
    ∃ verdict logged, verifyVectors expected actual tolerance = .ok (verdict, logged) ∧
      (verdict = true ↔ expected.length ≤ actual.length ∧
        ∀ i, i < expected.length → |expected.getD i 0 - actual.getD i 0| ≤ tolerance) := by
  unfold verifyVectors
  by_cases hlen : expected.length > actual.length
  · exact ⟨false, [], by simp [hlen], by simp; intro h; omega⟩
  · obtain ⟨v, l, hv, hiff⟩ := verifyFrom_spec tolerance expected 0 actual (not_lt.1 hlen)
    exact ⟨v, l, by simp [hlen, hv], by rw [hiff]; simp [not_lt.1 hlen]⟩

/-- Witness for C8: differences exactly equal to the tolerance pass and the
third element of `actual` is ignored; the verdict `true` gives the bound at
both indices. -/
theorem verifyVectors_iff_witness :
    verifyVectors [2, 7 / 2] [201 / 100, 349 / 100, 9] (1 / 100) = .ok (true, []) ∧
      |(2 : ℚ) - 201 / 100| ≤ 1 / 100 ∧ |(7 : ℚ) / 2 - 349 / 100| ≤ 1 / 100 := by
  obtain ⟨verdict, logged, hrun, hiff⟩ :=
    verifyVectors_iff [2, 7 / 2] [201 / 100, 349 / 100, 9] (1 / 100)
  have hval : verifyVectors [2, 7 / 2] [201 / 100, 349 / 100, 9] (1 / 100) = .ok (true, []) := by
    have h1 : ¬ (|(2 : ℚ) - 201 / 100| > 1 / 100) := by
      rw [abs_of_nonpos (by norm_num)]; norm_num
    have h2 : ¬ (|(7 : ℚ) / 2 - 349 / 100| > 1 / 100) := by
      rw [abs_of_nonneg (by norm_num)]; norm_num
    simp only [verifyVectors, verifyFrom, List.length_cons, List.length_nil, h1, h2, if_false]
    norm_num
  rw [hval] at hrun
  injection hrun with hrun
  injection hrun with hv hl
  have hb := (hiff.1 hv.symm).2
  exact ⟨hval, by simpa using hb 0 (by decide), by simpa using hb 1 (by decide)⟩

/-! ## The verification of `demonstrateBFV` -/

theorem collect_map_ok {β γ : Type} (f : γ → β) (l : List γ) :
    collect (l.map fun x => (Except.ok (f x) : Except Halt β)) = .ok (l.map f) := by
  induction l with
  | nil => rfl
  | cons x l ih => simp [collect, ih]

theorem forIndex_ok {β : Type} (n : Nat) (body : Nat → Except Halt β) (f : Nat → β)
    (h : ∀ i, i < n → body i = .ok (f i)) : forIndex n body = .ok ((List.range n).map f) := by
  unfold forIndex
  have hmap : (List.range n).map body = (List.range n).map fun i => Except.ok (f i) := by
    apply List.map_congr_left
    intro i hi
    exact h i (List.mem_range.1 hi)
  rw [hmap, collect_map_ok]

theorem index_ok {α : Type} (name : String) (vec : List α) (d : α) {i : Nat}
    (h : i < vec.length) : index name vec i = .ok (vec.getD i d) := by
  unfold index
  rw [List.get?_eq_get h, List.getD_eq_getElem _ _ h]
  rfl

theorem forIndex_index {α : Type} (name : String) (vec : List α) (n : Nat)
    (h : n ≤ vec.length) : forIndex n (index name vec) = .ok (vec.take n) := by
  unfold forIndex
  have hmap : (List.range n).map (index name vec) =
      (vec.take n).map fun x => (Except.ok x : Except Halt α) := by
    apply List.ext_getElem
    · simp [List.length_take, h]
    · intro i h1 h2
      have hi : i < n := by simpa using h1
      have hv : i < vec.length := by omega
      simp only [List.getElem_map, List.getElem_range, List.getElem_take]
      unfold index
      rw [List.get?_eq_get hv]
      rfl
  rw [hmap, collect_map_ok]
  simp

theorem resize_length {α : Type} [Zero α] (vec : List α) (n : Nat) :
    (resize vec n).length = n := by
  simp only [resize, List.length_append, List.length_take, List.length_replicate]
  omega

theorem resize_getD {α : Type} [Zero α] (vec : List α) (n i : Nat) (h : i < n) :
    (resize vec n).getD i 0 = vec.getD i 0 := by
  unfold resize
  by_cases hi : i < vec.length
  · have h1 : i < (vec.take n).length := by simp [List.length_take]; omega
    rw [List.getD_append _ _ _ _ h1, List.getD_eq_getElem _ _ h1, List.getD_eq_getElem _ _ hi]
    simp
  · have h1 : (vec.take n).length ≤ i := by simp [List.length_take]; omega
    rw [List.getD_append_right _ _ _ _ h1, List.getD_eq_default _ _ (not_lt.1 hi)]
    have h2 : i - (vec.take n).length < n - vec.length := by
      simp only [List.length_take]; omega
    rw [List.getD_eq_getElem _ _ (by simpa using h2)]
    simp

theorem eq_iff_getD {α : Type} [Zero α] (a b : List α) (n : Nat) (ha : a.length = n)
    (hb : b.length = n) : a = b ↔ ∀ i, i < n → a.getD i 0 = b.getD i 0 := by
  constructor
  · rintro rfl i _; rfl
  · intro h
    apply List.ext_getElem (ha.trans hb.symm)
    intro i h1 h2
    have := h i (ha ▸ h1)
    rwa [List.getD_eq_getElem _ _ h1, List.getD_eq_getElem _ _ h2] at this

/-- After the `resize`, a decoded vector equals the expected vector exactly
when the two agree in every slot below the expected length. -/
theorem resize_eq_iff (result expected : List Int) :
    resize result expected.length = expected ↔
      ∀ i, i < expected.length → result.getD i 0 = expected.getD i 0 := by
  rw [eq_iff_getD _ _ expected.length (resize_length _ _) rfl]
  constructor
  · intro h i hi
    rw [← resize_getD result expected.length i hi]
    exact h i hi
  · intro h i hi
    rw [resize_getD result expected.length i hi]
    exact h i hi

theorem wrapInt64_of_inRange (x : Int) (h1 : -9223372036854775808 ≤ x)
    (h2 : x < 9223372036854775808) : wrapInt64 x = x := by
  unfold wrapInt64
  omega

theorem bfvExpected_ok (n : Nat) (plaintext1 plaintext2 : List Int) (scalar : Int)
    (h1 : plaintext1.length = n) (h2 : plaintext2.length = n) :
    bfvExpected n plaintext1 plaintext2 scalar = .ok
      ⟨(List.range n).map fun i => wrapInt64 (plaintext1.getD i 0 + plaintext2.getD i 0),
       (List.range n).map fun i => wrapInt64 (plaintext1.getD i 0 * plaintext2.getD i 0),
       (List.range n).map fun i => wrapInt64 (plaintext1.getD i 0 * scalar)⟩ := by
  unfold bfvExpected
  rw [forIndex_ok n _ (fun i => (wrapInt64 (plaintext1.getD i 0 + plaintext2.getD i 0),
    wrapInt64 (plaintext1.getD i 0 * plaintext2.getD i 0),
    wrapInt64 (plaintext1.getD i 0 * scalar)))]
  · simp [List.map_map, Function.comp_def]
  · intro i hi
    rw [index_ok "plaintext1" plaintext1 0 (h1 ▸ hi),
      index_ok "plaintext2" plaintext2 0 (h2 ▸ hi)]

theorem getD_range_map (n : Nat) (f : Nat → Int) (i : Nat) (h : i < n) :
    ((List.range n).map f).getD i 0 = f i := by
  rw [List.getD_eq_getElem _ _ (by simpa using h)]
  simp

theorem verdict_iff (result : List Int) (n : Nat) (f : Nat → Int) :
    decide (resize result ((List.range n).map f).length = (List.range n).map f) = true ↔
      ∀ i, i < n → result.getD i 0 = f i := by
  rw [decide_eq_true_eq, resize_eq_iff]
  simp only [List.length_map, List.length_range]
  constructor
  · intro h i hi; rw [h i hi, getD_range_map n _ i hi]
  · intro h i hi; rw [h i hi, getD_range_map n _ i hi]

theorem report_pass_iff (v : BFVVerdicts) :
    (.log "   Addition verification: PASS" ∈ .log "\n4. Verification:" :: bfvReport v ↔
      v.sum_correct = true) ∧
    (.log "   Multiplication verification: PASS" ∈ .log "\n4. Verification:" :: bfvReport v ↔
      v.mult_correct = true) ∧
    (.log "   Scalar multiplication verification: PASS" ∈
      .log "\n4. Verification:" :: bfvReport v ↔ v.scalar_correct = true) := by
  obtain ⟨a, b, c⟩ := v
  cases a <;> cases b <;> cases c <;> decide

theorem bfvVerification_ok {n : Nat} {plaintext1 plaintext2 : List Int} {scalar : Int}
    {e : BFVExpected} (he : bfvExpected n plaintext1 plaintext2 scalar = .ok e)
    (sum_result mult_result scalar_result : List Int) :
    bfvVerification n plaintext1 plaintext2 scalar sum_result mult_result scalar_result =
      ⟨.log "\n4. Verification:" :: bfvReport (bfvVerdicts e sum_result mult_result scalar_result),
        none⟩ := by
  simp [bfvVerification, he, after, emit, Run.andThen]

/-- C9: in `demonstrateBFV`, for plaintexts of length `vector_size = n`, the
expected vectors are computed from the plaintexts and the scalar 2 alone (they
exist before and independently of any decoded vector), the verification always
completes, and each verdict is PASS exactly when, for every `i < n`, the
`i`-th slot of the decoded vector (after the `resize`) equals
`plaintext1[i] + plaintext2[i]`, `plaintext1[i] * plaintext2[i]`,
`plaintext1[i] * 2` respectively, computed in `int64_t`; where the exact
result lies in the `int64_t` range that is the exact sum or product. -/
theorem bfv_verdicts_exact (n : Nat) (plaintext1 plaintext2 : List Int)
    (h1 : plaintext1.length = n) (h2 : plaintext2.length = n) :
    (∃ e : BFVExpected, bfvExpected n plaintext1 plaintext2 2 = .ok e ∧
      ∀ sum_result mult_result scalar_result : List Int,
        (bfvVerification n plaintext1 plaintext2 2 sum_result mult_result scalar_result).halt =
          none ∧
        (.log "   Addition verification: PASS" ∈
            (bfvVerification n plaintext1 plaintext2 2 sum_result mult_result
              scalar_result).events ↔
          ∀ i, i < n →
            sum_result.getD i 0 = wrapInt64 (plaintext1.getD i 0 + plaintext2.getD i 0)) ∧
        (.log "   Multiplication verification: PASS" ∈
            (bfvVerification n plaintext1 plaintext2 2 sum_result mult_result
              scalar_result).events ↔
          ∀ i, i < n →
            mult_result.getD i 0 = wrapInt64 (plaintext1.getD i 0 * plaintext2.getD i 0)) ∧
        (.log "   Scalar multiplication verification: PASS" ∈
            (bfvVerification n plaintext1 plaintext2 2 sum_result mult_result
              scalar_result).events ↔
          ∀ i, i < n → scalar_result.getD i 0 = wrapInt64 (plaintext1.getD i 0 * 2))) ∧
    (∀ x : Int, -9223372036854775808 ≤ x → x < 9223372036854775808 → wrapInt64 x = x) := by
  refine ⟨⟨_, bfvExpected_ok n plaintext1 plaintext2 2 h1 h2, ?_⟩, wrapInt64_of_inRange⟩
  intro sum_result mult_result scalar_result
  rw [bfvVerification_ok (bfvExpected_ok n plaintext1 plaintext2 2 h1 h2)]
  have hrep := report_pass_iff (bfvVerdicts
    ⟨(List.range n).map fun i => wrapInt64 (plaintext1.getD i 0 + plaintext2.getD i 0),
     (List.range n).map fun i => wrapInt64 (plaintext1.getD i 0 * plaintext2.getD i 0),
     (List.range n).map fun i => wrapInt64 (plaintext1.getD i 0 * 2)⟩
    sum_result mult_result scalar_result)
  exact ⟨rfl, hrep.1.trans (verdict_iff _ n _), hrep.2.1.trans (verdict_iff _ n _),
    hrep.2.2.trans (verdict_iff _ n _)⟩

/-- Witness for C9: with plaintexts `[3, -4]` and `[5, 6]`, the decoded sum
`[8, 2]` passes, the decoded product `[15, -24, 9]` passes (the third slot is
cut off by the `resize`), and the decoded scalar product `[6, -7]` fails. -/
theorem bfv_verdicts_exact_witness :
    (.log "   Addition verification: PASS" ∈
        (bfvVerification 2 [3, -4] [5, 6] 2 [8, 2] [15, -24, 9] [6, -7]).events) ∧
      (.log "   Multiplication verification: PASS" ∈
        (bfvVerification 2 [3, -4] [5, 6] 2 [8, 2] [15, -24, 9] [6, -7]).events) ∧
      (.log "   Scalar multiplication verification: PASS" ∉
        (bfvVerification 2 [3, -4] [5, 6] 2 [8, 2] [15, -24, 9] [6, -7]).events) := by
  obtain ⟨e, -, h⟩ := (bfv_verdicts_exact 2 [3, -4] [5, 6] rfl rfl).1
  have hw := h [8, 2] [15, -24, 9] [6, -7]
  exact ⟨hw.2.1.2 (by decide), hw.2.2.1.2 (by decide), fun hin => absurd (hw.2.2.2.1 hin) (by decide)⟩

/-! ## A whole run of `demonstrateBFV` -/

theorem andThen_of_halt_none {a : Run} (h : a.halt = none) (b : Run) :
    a.andThen b = ⟨a.events ++ b.events, b.halt⟩ := by
  simp [Run.andThen, h]

theorem operandPairs_ok (n : Nat) (plaintext1 plaintext2 : List Int)
    (h1 : plaintext1.length = n) (h2 : plaintext2.length = n) :
    operandPairs n plaintext1 plaintext2 =
      .ok ((List.range n).map fun i => (plaintext1.getD i 0, plaintext2.getD i 0)) := by
  unfold operandPairs
  apply forIndex_ok
  intro i hi
  rw [index_ok "plaintext1" plaintext1 0 (h1 ▸ hi), index_ok "plaintext2" plaintext2 0 (h2 ▸ hi)]

theorem seq_ends_single (last : Run) :
    (Run.seq [last]).halt = last.halt ∧ ∃ before, (Run.seq [last]).events = before ++ last.events := by
  cases h : last.halt with
  | none => exact ⟨by simp [Run.seq, Run.andThen, h], [], by simp [Run.seq, Run.andThen, h]⟩
  | some x => exact ⟨by simp [Run.seq, Run.andThen, h], [], by simp [Run.seq, Run.andThen, h]⟩

theorem seq_ends_cons (r : Run) (rs : List Run) (last : Run) (hr : r.halt = none)
    (h : (Run.seq rs).halt = last.halt ∧ ∃ before, (Run.seq rs).events = before ++ last.events) :
    (Run.seq (r :: rs)).halt = last.halt ∧
      ∃ before, (Run.seq (r :: rs)).events = before ++ last.events := by
  obtain ⟨h1, before, h2⟩ := h
  refine ⟨by simp [Run.seq, Run.andThen, hr, h1], r.events ++ before, ?_⟩
  simp [Run.seq, Run.andThen, hr, h2]

/-- When no library call throws, the plaintexts have `vector_size` elements
and the decoded vectors at least as many, `demonstrateBFV` runs to its end and
the last thing it does is the verification. -/
theorem bfvBody_runs (lib : BFVLibrary) (hq : ∀ c, lib.throws c = none) (n : Nat)
    (p1 p2 : List Int) (h1 : p1.length = n) (h2 : p2.length = n)
    (hs : n ≤ (lib.sum_result p1 p2).length) (hm : n ≤ (lib.mult_result p1 p2).length)
    (hc : n ≤ (lib.scalar_result p1 (List.replicate p1.length 2)).length) :
    (bfvBody lib n p1 p2).halt = none ∧
      ∃ before, (bfvBody lib n p1 p2).events = before ++
        (bfvVerification n p1 p2 2 (lib.sum_result p1 p2) (lib.mult_result p1 p2)
          (lib.scalar_result p1 (List.replicate p1.length 2))).events := by
  have hv := bfvVerification_ok (bfvExpected_ok n p1 p2 2 h1 h2) (lib.sum_result p1 p2)
    (lib.mult_result p1 p2) (lib.scalar_result p1 (List.replicate p1.length 2))
  have hp1 : n ≤ p1.length := by omega
  have hlast : (bfvVerification n p1 p2 2 (lib.sum_result p1 p2) (lib.mult_result p1 p2)
      (lib.scalar_result p1 (List.replicate p1.length 2))).halt = none := by rw [hv]
  rw [← hlast]
  unfold bfvBody
  simp only []
  repeat first
    | exact seq_ends_single _
    | refine seq_ends_cons _ _ _ (by
        simp [Run.andThen, libCall, hq, emit, print_bfv_info, printResult, after,
          operandPairs_ok n p1 p2 h1 h2, forIndex_index _ _ n hs, forIndex_index _ _ n hm,
          forIndex_index _ _ n hc, forIndex_index _ _ n hp1]) ?_

/-- C10: the end-to-end integer scenario.  With the input lines `4`,
`1 2 3 4`, `5 6 7 8` the harness computes the expected vectors
`[6, 8, 10, 12]`, `[5, 12, 21, 32]` and `[2, 4, 6, 8]`; and with a library
whose calls do not throw and whose decoded results carry these values in
their first 4 slots, `demonstrateBFV` runs to its end and the last lines it
logs are the three PASS verdicts followed by the all-tests-passing banner. -/
theorem bfv_end_to_end (lib : BFVLibrary) (hq : ∀ c, lib.throws c = none)
    (hs : (lib.sum_result [1, 2, 3, 4] [5, 6, 7, 8]).take 4 = [6, 8, 10, 12])
    (hm : (lib.mult_result [1, 2, 3, 4] [5, 6, 7, 8]).take 4 = [5, 12, 21, 32])
    (hc : (lib.scalar_result [1, 2, 3, 4] [2, 2, 2, 2]).take 4 = [2, 4, 6, 8]) :
    (bfvInput ["4".toList, "1 2 3 4".toList, "5 6 7 8".toList]).vector_size = 4 ∧
    (bfvInput ["4".toList, "1 2 3 4".toList, "5 6 7 8".toList]).plaintext1 = [1, 2, 3, 4] ∧
    (bfvInput ["4".toList, "1 2 3 4".toList, "5 6 7 8".toList]).plaintext2 = [5, 6, 7, 8] ∧
    bfvExpected 4 [1, 2, 3, 4] [5, 6, 7, 8] 2 =
      .ok ⟨[6, 8, 10, 12], [5, 12, 21, 32], [2, 4, 6, 8]⟩ ∧
    (demonstrateBFV lib ["4".toList, "1 2 3 4".toList, "5 6 7 8".toList]).halt = none ∧
    ∃ before,
      (demonstrateBFV lib ["4".toList, "1 2 3 4".toList, "5 6 7 8".toList]).events =
        before ++
          (.log "\n4. Verification:" :: .log "   Addition verification: PASS" ::
            .log "   Multiplication verification: PASS" ::
            .log "   Scalar multiplication verification: PASS" :: bfvBanner) := by
  have hv : (bfvInput ["4".toList, "1 2 3 4".toList, "5 6 7 8".toList]).vector_size = 4 := by
    decide
  have hp1 : (bfvInput ["4".toList, "1 2 3 4".toList, "5 6 7 8".toList]).plaintext1 =
      [1, 2, 3, 4] := by decide
  have hp2 : (bfvInput ["4".toList, "1 2 3 4".toList, "5 6 7 8".toList]).plaintext2 =
      [5, 6, 7, 8] := by decide
  have he : bfvExpected 4 [1, 2, 3, 4] [5, 6, 7, 8] 2 =
      .ok ⟨[6, 8, 10, 12], [5, 12, 21, 32], [2, 4, 6, 8]⟩ := by rfl
  have hlen : ∀ {l r : List Int}, l.take 4 = r → r.length = 4 → 4 ≤ l.length := by
    intro l r h hr
    have := congrArg List.length h
    rw [List.length_take, hr] at this
    omega
  have hres : ∀ {l r : List Int}, l.take 4 = r → r.length = 4 → resize l 4 = r := by
    intro l r h hr
    have h4 := hlen h hr
    unfold resize
    rw [h, Nat.sub_eq_zero_of_le h4]
    simp
  have hrep : List.replicate ([1, 2, 3, 4] : List Int).length (2 : Int) = [2, 2, 2, 2] := rfl
  have hrun := bfvBody_runs lib hq 4 [1, 2, 3, 4] [5, 6, 7, 8] rfl rfl (hlen hs rfl)
    (hlen hm rfl) (hrep ▸ hlen hc rfl)
  have hver := bfvVerification_ok he (lib.sum_result [1, 2, 3, 4] [5, 6, 7, 8])
    (lib.mult_result [1, 2, 3, 4] [5, 6, 7, 8]) (lib.scalar_result [1, 2, 3, 4] [2, 2, 2, 2])
  have hverd : bfvVerdicts ⟨[6, 8, 10, 12], [5, 12, 21, 32], [2, 4, 6, 8]⟩
      (lib.sum_result [1, 2, 3, 4] [5, 6, 7, 8]) (lib.mult_result [1, 2, 3, 4] [5, 6, 7, 8])
      (lib.scalar_result [1, 2, 3, 4] [2, 2, 2, 2]) = ⟨true, true, true⟩ := by
    unfold bfvVerdicts
    have e1 : resize (lib.sum_result [1, 2, 3, 4] [5, 6, 7, 8])
        ([6, 8, 10, 12] : List Int).length = [6, 8, 10, 12] := hres hs rfl
    have e2 : resize (lib.mult_result [1, 2, 3, 4] [5, 6, 7, 8])
        ([5, 12, 21, 32] : List Int).length = [5, 12, 21, 32] := hres hm rfl
    have e3 : resize (lib.scalar_result [1, 2, 3, 4] [2, 2, 2, 2])
        ([2, 4, 6, 8] : List Int).length = [2, 4, 6, 8] := hres hc rfl
    simp only [e1, e2, e3, decide_True]
  rw [hrep] at hrun
  rw [hver, hverd] at hrun
  obtain ⟨hhalt, before, hev⟩ := hrun
  refine ⟨hv, hp1, hp2, he, ?_, ?_⟩
  · unfold demonstrateBFV
    simp only [hv, hp1, hp2]
    rw [andThen_of_halt_none rfl]
    exact hhalt
  · unfold demonstrateBFV
    simp only [hv, hp1, hp2]
    rw [andThen_of_halt_none rfl, hev]
    refine ⟨(emit (bfvHeader ++
      (bfvInput ["4".toList, "1 2 3 4".toList, "5 6 7 8".toList]).out)).events ++ before, ?_⟩
    simp [bfvReport, passFail]

/-- Witness for C10: the run with a library of 8 slots that returns the exact
slot-wise results. -/
theorem bfv_end_to_end_witness :
    (demonstrateBFV (quietLibrary 8) ["4".toList, "1 2 3 4".toList, "5 6 7 8".toList]).halt =
        none ∧
      ∃ before,
        (demonstrateBFV (quietLibrary 8)
          ["4".toList, "1 2 3 4".toList, "5 6 7 8".toList]).events =
          before ++
            (.log "\n4. Verification:" :: .log "   Addition verification: PASS" ::
              .log "   Multiplication verification: PASS" ::
              .log "   Scalar multiplication verification: PASS" :: bfvBanner) := by
  have h := bfv_end_to_end (quietLibrary 8) (fun _ => rfl) (by decide) (by decide) (by decide)
  exact ⟨h.2.2.2.2.1, h.2.2.2.2.2⟩

/-! ## Termination of the input loops -/

theorem getUserSizeLoop_reads_once (stdin : List Line) (size : Nat) :
    ∃ read, stdin = read ++ (getUserSizeLoop stdin size).rest ∧
      read.length ≤ (getUserSizeLoop stdin size).out.count sizePrompt ∧
      (getUserSizeLoop stdin size).out.count sizePrompt ≤ read.length + 1 := by
  induction stdin generalizing size with
  | nil =>
    refine ⟨[], ?_, ?_, ?_⟩
    · unfold getUserSizeLoop; split <;> rfl
    · simp
    · unfold getUserSizeLoop; split <;> simp
  | cons line rest ih =>
    obtain ⟨read, h1, h2, h3⟩ := ih 0
    have hp1 : (sizeErrSingle == sizePrompt) = false := by decide
    have hp2 : (sizeErrPositive == sizePrompt) = false := by decide
    unfold getUserSizeLoop
    split
    · split
      · exact ⟨[line], rfl, by simp, by simp⟩
      · refine ⟨line :: read, by simp [← h1], ?_, ?_⟩
        · simp only [List.count_cons, hp1, beq_self_eq_true, if_true, List.length_cons]
          simp only [Bool.false_eq_true, if_false]
          omega
        · simp only [List.count_cons, hp1, beq_self_eq_true, if_true, List.length_cons]
          simp only [Bool.false_eq_true, if_false]
          omega
      · refine ⟨line :: read, by simp [← h1], ?_, ?_⟩
        · simp only [List.count_cons, hp2, beq_self_eq_true, if_true, List.length_cons]
          simp only [Bool.false_eq_true, if_false]
          omega
        · simp only [List.count_cons, hp2, beq_self_eq_true, if_true, List.length_cons]
          simp only [Bool.false_eq_true, if_false]
          omega
    · exact ⟨[], rfl, by simp, by simp⟩

theorem getUserVectorLoop_reads_once {α : Type} (extract : List Char → Option (α × List Char))
    (size : Nat) (kind name : String) (stdin : List Line) (vec : List α) :
    ∃ read, stdin = read ++ (getUserVectorLoop extract size kind name stdin vec).rest ∧
      read.length ≤
        (getUserVectorLoop extract size kind name stdin vec).out.count
          (.coutPrompt size kind name) ∧
      (getUserVectorLoop extract size kind name stdin vec).out.count
          (.coutPrompt size kind name) ≤ read.length + 1 := by
  induction stdin generalizing vec with
  | nil =>
    refine ⟨[], ?_, ?_, ?_⟩
    · unfold getUserVectorLoop; split <;> rfl
    · simp
    · unfold getUserVectorLoop; split <;> simp
  | cons line rest ih =>
    have hp1 : (Ev.logInput name line == Ev.coutPrompt size kind name) = false := by
      rw [beq_eq_false_iff_ne]; intro h; cases h
    have hp2 : (vecErr == Ev.coutPrompt size kind name) = false := by
      rw [beq_eq_false_iff_ne]; intro h; cases h
    unfold getUserVectorLoop
    split
    · simp only
      split
      · obtain ⟨read, h1, h2, h3⟩ := ih []
        refine ⟨line :: read, by simp [← h1], ?_, ?_⟩
        · simp only [List.count_cons, hp1, hp2, beq_self_eq_true, if_true, List.length_cons]
          simp only [Bool.false_eq_true, if_false]
          omega
        · simp only [List.count_cons, hp1, hp2, beq_self_eq_true, if_true, List.length_cons]
          simp only [Bool.false_eq_true, if_false]
          omega
      · obtain ⟨read, h1, h2, h3⟩ := ih (fillFrom extract (size - vec.length) line vec)
        refine ⟨line :: read, by simp [← h1], ?_, ?_⟩
        · simp only [List.count_cons, hp1, beq_self_eq_true, if_true, List.length_cons]
          simp only [Bool.false_eq_true, if_false]
          omega
        · simp only [List.count_cons, hp1, beq_self_eq_true, if_true, List.length_cons]
          simp only [Bool.false_eq_true, if_false]
          omega
    · exact ⟨[], rfl, by simp, by simp⟩

/-- C16: the input loops terminate on every finite input.  For every finite
list of input lines (the empty one included) and every size, `getUserSize`,
`getUserVectorInt` and `getUserVectorDouble` return: the lines they read are
an initial stretch of the input, each read once and in order, and what they
leave unread is the rest; the number of loop iterations (one prompt each) is
the number of lines read, or one more when the loop is left at the end of
input.  With size 0, `getUserVectorInt` and `getUserVectorDouble` return the
empty vector, having read no line and printed no prompt. -/
theorem input_loops_read_each_line_once (stdin : List Line) (size : Nat) (name : String) :
    (∃ read, stdin = read ++ (getUserSize stdin).rest ∧
      read.length ≤ (getUserSize stdin).out.count sizePrompt ∧
      (getUserSize stdin).out.count sizePrompt ≤ read.length + 1 ∧
      (getUserSize stdin).out.count sizePrompt ≤ stdin.length + 1) ∧
    (∃ read, stdin = read ++ (getUserVectorInt size name stdin).rest ∧
      read.length ≤
        (getUserVectorInt size name stdin).out.count (.coutPrompt size "integers" name) ∧
      (getUserVectorInt size name stdin).out.count (.coutPrompt size "integers" name) ≤
        read.length + 1 ∧
      (getUserVectorInt size name stdin).out.count (.coutPrompt size "integers" name) ≤
        stdin.length + 1) ∧
    (∀ (D : Type) (extractDouble : List Char → Option (D × List Char)),
      ∃ read, stdin = read ++ (getUserVectorDouble extractDouble size name stdin).rest ∧
        read.length ≤
          (getUserVectorDouble extractDouble size name stdin).out.count
            (.coutPrompt size "doubles" name) ∧
        (getUserVectorDouble extractDouble size name stdin).out.count
            (.coutPrompt size "doubles" name) ≤ read.length + 1 ∧
        (getUserVectorDouble extractDouble size name stdin).out.count
            (.coutPrompt size "doubles" name) ≤ stdin.length + 1) ∧
    ((getUserVectorInt 0 name stdin).value = [] ∧ (getUserVectorInt 0 name stdin).rest = stdin ∧
      (getUserVectorInt 0 name stdin).out = []) ∧
    (∀ (D : Type) (extractDouble : List Char → Option (D × List Char)),
      (getUserVectorDouble extractDouble 0 name stdin).value = [] ∧
      (getUserVectorDouble extractDouble 0 name stdin).rest = stdin ∧
      (getUserVectorDouble extractDouble 0 name stdin).out = []) := by
  have hlen : ∀ (read rest : List Line), stdin = read ++ rest → read.length ≤ stdin.length := by
    intro read rest h
    rw [h, List.length_append]
    omega
  refine ⟨?_, ?_, ?_, ?_, ?_⟩
  · obtain ⟨read, h1, h2, h3⟩ := getUserSizeLoop_reads_once stdin 0
    have hc : (getUserSize stdin).out.count sizePrompt =
        (getUserSizeLoop stdin 0).out.count sizePrompt := by
      have hne : (Ev.logSize (getUserSizeLoop stdin 0).value == sizePrompt) = false := by
        rw [beq_eq_false_iff_ne]; intro h; cases h
      simp [getUserSize, List.count_append, List.count_cons, hne]
    have hl := hlen read _ h1
    exact ⟨read, h1, by rw [hc]; exact h2, by rw [hc]; exact h3, by rw [hc]; omega⟩
  · obtain ⟨read, h1, h2, h3⟩ :=
      getUserVectorLoop_reads_once extractInt64 size "integers" name stdin []
    have hl := hlen read _ h1
    exact ⟨read, h1, h2, h3, by unfold getUserVectorInt; omega⟩
  · intro D extractDouble
    obtain ⟨read, h1, h2, h3⟩ :=
      getUserVectorLoop_reads_once extractDouble size "doubles" name stdin []
    have hl := hlen read _ h1
    exact ⟨read, h1, h2, h3, by unfold getUserVectorDouble; omega⟩
  · unfold getUserVectorInt
    rw [getUserVectorLoop_done extractInt64 0 "integers" name stdin [] (by simp)]
    exact ⟨rfl, rfl, rfl⟩
  · intro D extractDouble
    unfold getUserVectorDouble
    rw [getUserVectorLoop_done extractDouble 0 "doubles" name stdin [] (by simp)]
    exact ⟨rfl, rfl, rfl⟩

/-! ## Every `int64_t` can be entered -/

theorem digitChar_toNat (d : Nat) (hd : d < 10) : (Char.ofNat (d + 48)).toNat = d + 48 := by
  interval_cases d <;> rfl

theorem digitsVal_append_singleton (ds : List Char) (c : Char) :
    digitsVal (ds ++ [c]) = 10 * digitsVal ds + (c.toNat - 48) := by
  simp [digitsVal, List.foldl_append]

theorem digitsVal_digits (l : List Nat) (hl : ∀ d ∈ l, d < 10) :
    digitsVal (l.reverse.map fun d => Char.ofNat (d + 48)) = Nat.ofDigits 10 l := by
  induction l with
  | nil => rfl
  | cons d l ih =>
    rw [List.reverse_cons, List.map_append, List.map_singleton, digitsVal_append_singleton,
      ih fun x hx => hl x (List.mem_cons_of_mem _ hx), digitChar_toNat d (hl d (List.mem_cons_self _ _)),
      Nat.ofDigits_cons]
    omega

theorem numeral_spec (n : Nat) :
    numeral n ≠ [] ∧ (∀ c ∈ numeral n, isdigit c = true) ∧ digitsVal (numeral n) = n := by
  unfold numeral
  by_cases h0 : n = 0
  · subst h0
    exact ⟨by simp, by simp [isdigit], by simp [digitsVal]⟩
  · have hlt : ∀ d ∈ Nat.digits 10 n, d < 10 := fun d hd => Nat.digits_lt_base (by omega) hd
    simp only [h0, if_false]
    refine ⟨?_, ?_, ?_⟩
    · simpa using Nat.digits_ne_nil_iff_ne_zero.2 h0
    · intro c hc
      obtain ⟨d, hd, rfl⟩ := List.mem_map.1 hc
      have hd10 := hlt d (List.mem_reverse.1 hd)
      simp only [isdigit, digitChar_toNat d hd10, Bool.and_eq_true, decide_eq_true_eq]
      omega
    · rw [digitsVal_digits _ hlt, Nat.ofDigits_digits]

theorem extractInt64_digits (pre ds : List Char) (hpre : pre = [] ∨ pre = ['-'])
    (hne : ds ≠ []) (hds : ∀ c ∈ ds, isdigit c = true) :
    extractInt64 (pre ++ ds) =
      if pre = [] then
        if INT64_BOUND ≤ digitsVal ds then none else some ((digitsVal ds : Int), [])
      else
        if INT64_BOUND < digitsVal ds then none else some (-(digitsVal ds : Int), []) := by
  have hsp := span_digits_spaces ds [] hds (by simp)
  simp only [List.append_nil] at hsp
  obtain ⟨d, ds', rfl⟩ := List.exists_cons_of_ne_nil hne
  have hd := hds d (List.mem_cons_self _ _)
  have hdsp : isspace d = false := isdigit_not_isspace hd
  have hsign := isdigit_not_sign hd
  rcases hpre with rfl | rfl
  · have hdrop : ([] ++ d :: ds').dropWhile isspace = d :: ds' := by
      simp [List.dropWhile, hdsp]
    have htake : takeSign (d :: ds') = (false, d :: ds') := by simp [takeSign, hsign.1, hsign.2]
    unfold extractInt64
    simp only [hdrop, htake, hsp.1, hsp.2]
    simp
  · have hdrop : (['-'] ++ d :: ds').dropWhile isspace = '-' :: d :: ds' := by
      simp [List.dropWhile, isspace]
    have htake : takeSign ('-' :: d :: ds') = (true, d :: ds') := by simp [takeSign]
    unfold extractInt64
    simp only [hdrop, htake, hsp.1, hsp.2]
    simp

/-- The decimal numeral of any `int64_t` value is read back as that value. -/
theorem extractInt64_intNumeral (v : Int) (h1 : -9223372036854775808 ≤ v)
    (h2 : v < 9223372036854775808) : extractInt64 (intNumeral v) = some (v, []) := by
  obtain ⟨hne, hds, hval⟩ := numeral_spec v.natAbs
  unfold intNumeral
  by_cases hneg : v < 0
  · simp only [hneg, if_true]
    have h := extractInt64_digits ['-'] (numeral v.natAbs) (Or.inr rfl) hne hds
    simp only [List.singleton_append] at h
    rw [h, hval]
    have hb : ¬ INT64_BOUND < v.natAbs := by unfold INT64_BOUND; omega
    simp only [List.cons_ne_nil, if_false, hb, Option.some.injEq, Prod.mk.injEq, and_true]
    omega
  · simp only [hneg, if_false]
    have h := extractInt64_digits [] (numeral v.natAbs) (Or.inl rfl) hne hds
    simp only [List.nil_append] at h
    rw [h, hval]
    have hb : ¬ INT64_BOUND ≤ v.natAbs := by unfold INT64_BOUND; omega
    simp only [if_true, hb, if_false, Option.some.injEq, Prod.mk.injEq, and_true]
    omega

/-! ## Wrap-around modulo the plaintext modulus -/

theorem centered_lt (t : Nat) (ht0 : 0 < t) (x : Int) : centered t x < t := by
  have h1 : x % (t : Int) < t := Int.emod_lt_of_pos x (by exact_mod_cast ht0)
  unfold centered
  split <;> omega

/-- C14: wrap-around modulo the plaintext modulus is never checked against the
magnitude of the input and shows up only as a verification FAIL.
`getUserVectorInt` accepts the numeral of every `int64_t` value; the expected
values are the plain `int64_t` results, here `2000 * 2000 = 4000000` for
`vector_size` 1 and both plaintexts `[2000]`; and with a library none of whose
calls throws and which delivers the product reduced modulo a plaintext
modulus `t < 2 ^ 20` in centered representation, `demonstrateBFV` runs to its
end (no error is raised) and its log ends with the three verdict lines, the
second being `Multiplication verification: FAIL`, with no banner after
them. -/
theorem wraparound_only_fails_verification (lib : BFVLibrary) (t : Nat) (ht0 : 0 < t)
    (ht : t < PLAIN_MODULUS_RANGE) (hq : ∀ c, lib.throws c = none)
    (hmult : (lib.mult_result [2000] [2000]).head? = some (centered t 4000000))
    (hs : 1 ≤ (lib.sum_result [2000] [2000]).length)
    (hc : 1 ≤ (lib.scalar_result [2000] [2]).length) :
    (∀ (v : Int) (name : String) (rest : List Line), -9223372036854775808 ≤ v →
      v < 9223372036854775808 →
      (getUserVectorInt 1 name (intNumeral v :: rest)).value = [v]) ∧
    (bfvInput ["1".toList, "2000".toList, "2000".toList]).vector_size = 1 ∧
    (bfvInput ["1".toList, "2000".toList, "2000".toList]).plaintext1 = [2000] ∧
    (bfvInput ["1".toList, "2000".toList, "2000".toList]).plaintext2 = [2000] ∧
    bfvExpected 1 [2000] [2000] 2 = .ok ⟨[4000], [4000000], [4000]⟩ ∧
    (demonstrateBFV lib ["1".toList, "2000".toList, "2000".toList]).halt = none ∧
    ∃ before sum_correct scalar_correct,
      (demonstrateBFV lib ["1".toList, "2000".toList, "2000".toList]).events =
        before ++
          [.log "\n4. Verification:",
            .log ("   Addition verification: " ++ passFail sum_correct),
            .log "   Multiplication verification: FAIL",
            .log ("   Scalar multiplication verification: " ++ passFail scalar_correct)] := by
  have hv : (bfvInput ["1".toList, "2000".toList, "2000".toList]).vector_size = 1 := by decide
  have hp1 : (bfvInput ["1".toList, "2000".toList, "2000".toList]).plaintext1 = [2000] := by
    decide
  have hp2 : (bfvInput ["1".toList, "2000".toList, "2000".toList]).plaintext2 = [2000] := by
    decide
  have he : bfvExpected 1 [2000] [2000] 2 = .ok ⟨[4000], [4000000], [4000]⟩ := by rfl
  have hrep : List.replicate ([2000] : List Int).length (2 : Int) = [2] := rfl
  have hm1 : 1 ≤ (lib.mult_result [2000] [2000]).length := by
    cases hm : lib.mult_result [2000] [2000] with
    | nil => rw [hm] at hmult; cases hmult
    | cons x xs => simp
  have hrun := bfvBody_runs lib hq 1 [2000] [2000] rfl rfl hs hm1 (hrep ▸ hc)
  rw [hrep, bfvVerification_ok he] at hrun
  obtain ⟨hhalt, before, hev⟩ := hrun
  -- the decoded product differs from the expected one
  have hfail : (bfvVerdicts ⟨[4000], [4000000], [4000]⟩ (lib.sum_result [2000] [2000])
      (lib.mult_result [2000] [2000]) (lib.scalar_result [2000] [2])).mult_correct = false := by
    have hlt := centered_lt t ht0 4000000
    unfold PLAIN_MODULUS_RANGE at ht
    cases hm : lib.mult_result [2000] [2000] with
    | nil => rw [hm] at hmult; cases hmult
    | cons x xs =>
      rw [hm] at hmult
      simp only [List.head?_cons, Option.some.injEq] at hmult
      simp only [bfvVerdicts, resize, List.length_cons, List.length_nil, List.take_succ_cons,
        List.take_zero, decide_eq_false_iff_not]
      intro heq
      have hx : x = 4000000 := by
        have := congrArg List.head? heq
        simpa using this
      omega
  refine ⟨?_, hv, hp1, hp2, he, ?_, ?_⟩
  · intro v name rest h1 h2
    have hlead : leadingNumbers extractInt64 1 (intNumeral v) = some [v] := by
      simp [leadingNumbers, extractInt64_intNumeral v h1 h2]
    unfold getUserVectorInt
    rw [getUserVectorLoop_accept extractInt64 (by decide) "integers" name hlead rest]
  · unfold demonstrateBFV
    simp only [hv, hp1, hp2]
    rw [andThen_of_halt_none rfl]
    exact hhalt
  · unfold demonstrateBFV
    simp only [hv, hp1, hp2]
    rw [andThen_of_halt_none rfl, hev]
    refine ⟨(emit (bfvHeader ++
      (bfvInput ["1".toList, "2000".toList, "2000".toList]).out)).events ++ before,
      (bfvVerdicts ⟨[4000], [4000000], [4000]⟩ (lib.sum_result [2000] [2000])
        (lib.mult_result [2000] [2000]) (lib.scalar_result [2000] [2])).sum_correct,
      (bfvVerdicts ⟨[4000], [4000000], [4000]⟩ (lib.sum_result [2000] [2000])
        (lib.mult_result [2000] [2000]) (lib.scalar_result [2000] [2])).scalar_correct, ?_⟩
    simp [bfvReport, hfail, passFail]

/-- Witness for C14: the plaintext modulus 1032193 and a library of 8 slots
that reduces every slot modulo it.  The product slot holds `-128772`, the run
ends without error and logs `Multiplication verification: FAIL`. -/
theorem wraparound_only_fails_verification_witness :
    centered 1032193 4000000 = -128772 ∧
      (getUserVectorInt 1 "plaintext1" [intNumeral (-9223372036854775808)]).value =
        [-9223372036854775808] ∧
      (demonstrateBFV (centeredLibrary 1032193 8)
        ["1".toList, "2000".toList, "2000".toList]).halt = none ∧
      .log "   Multiplication verification: FAIL" ∈
        (demonstrateBFV (centeredLibrary 1032193 8)
          ["1".toList, "2000".toList, "2000".toList]).events := by
  have h := wraparound_only_fails_verification (centeredLibrary 1032193 8) 1032193 (by decide)
    (by decide) (fun _ => rfl) (by decide) (by decide) (by decide)
  obtain ⟨before, a, b, hev⟩ := h.2.2.2.2.2.2
  refine ⟨by decide, h.1 _ "plaintext1" [] (by decide) (by decide), h.2.2.2.2.2.1, ?_⟩
  rw [hev]
  simp

/-! ## A whole run of `demonstrateCKKS` -/

theorem verifyFrom_pass (tolerance : ℚ) (expected : List ℚ) :
    ∀ (i : Nat) (actual : List ℚ), expected.length ≤ actual.length →
      (∀ j, j < expected.length → |expected.getD j 0 - actual.getD j 0| ≤ tolerance) →
      verifyFrom i expected actual tolerance = .ok (true, []) := by
  induction expected with
  | nil => intro i actual _ _; rfl
  | cons e es ih =>
    intro i actual hlen hall
    cases actual with
    | nil => simp at hlen
    | cons a as =>
      have h0 : ¬ |e - a| > tolerance := by simpa using hall 0 (by simp)
      simp only [verifyFrom, h0, if_false]
      apply ih (i + 1) as (by simpa using hlen)
      intro j hj
      simpa using hall (j + 1) (by simpa using hj)

/-- A decoded vector within tolerance passes `verifyVectors` after the
`resize`, and nothing is logged. -/
theorem verifyVectors_resize_pass {expected decoded : List ℚ} {tolerance : ℚ}
    (h : WithinTolerance expected decoded tolerance) :
    verifyVectors expected (resize decoded expected.length) tolerance = .ok (true, []) := by
  have hlen : ¬ expected.length > (resize decoded expected.length).length := by
    rw [resize_length]; omega
  unfold verifyVectors
  rw [if_neg hlen]
  apply verifyFrom_pass
  · rw [resize_length]
  · intro j hj
    rw [resize_getD decoded expected.length j hj]
    exact h.2 j hj

theorem ckksExpected_ok (n : Nat) (plaintext1 plaintext2 : List ℚ) (scalar : ℚ)
    (h1 : plaintext1.length = n) (h2 : plaintext2.length = n) :
    ckksExpected n plaintext1 plaintext2 scalar = .ok
      ⟨(List.range n).map fun i => plaintext1.getD i 0 + plaintext2.getD i 0,
       (List.range n).map fun i => plaintext1.getD i 0 * plaintext2.getD i 0,
       (List.range n).map fun i => plaintext1.getD i 0 * scalar,
       (List.range n).map fun i => plaintext1.getD i 0 + plaintext2.getD i 0⟩ := by
  unfold ckksExpected
  rw [forIndex_ok n _ (fun i => (plaintext1.getD i 0 + plaintext2.getD i 0,
    plaintext1.getD i 0 * plaintext2.getD i 0, plaintext1.getD i 0 * scalar,
    plaintext1.getD i 0 + plaintext2.getD i 0))]
  · simp [List.map_map, Function.comp_def]
  · intro i hi
    rw [index_ok "plaintext1" plaintext1 0 (h1 ▸ hi),
      index_ok "plaintext2" plaintext2 0 (h2 ▸ hi)]

/-- With expected vectors in hand and every decoded vector within tolerance,
the verification of `demonstrateCKKS` logs four PASS lines and the banner. -/
theorem ckksVerification_pass {n : Nat} {plaintext1 plaintext2 : List ℚ} {scalar : ℚ}
    {e : CKKSExpected} (he : ckksExpected n plaintext1 plaintext2 scalar = .ok e)
    {sum_result mult_result scalar_result add_plain_result : List ℚ}
    (hs : WithinTolerance e.expected_sum sum_result (1 / 100))
    (hm : WithinTolerance e.expected_mult mult_result (1 / 100))
    (hc : WithinTolerance e.expected_scalar scalar_result (1 / 100))
    (ha : WithinTolerance e.expected_add_plain add_plain_result (1 / 100)) :
    ckksVerification n plaintext1 plaintext2 scalar sum_result mult_result scalar_result
        add_plain_result =
      ⟨.log "\n4. Verification:" :: ckksReport true true true true, none⟩ := by
  unfold ckksVerification verifyCall
  rw [he]
  simp only [after]
  rw [verifyVectors_resize_pass hs, verifyVectors_resize_pass hm, verifyVectors_resize_pass hc,
    verifyVectors_resize_pass ha]
  simp [emit, Run.andThen]

/-- When no library call throws, the plaintexts have `vector_size` elements
and the decoded vectors at least as many, `demonstrateCKKS` reaches its
verification, which is the last thing it does. -/
theorem ckksBody_runs (lib : CKKSLibrary) (hq : ∀ c, lib.throws c = none) (n : Nat)
    (p1 p2 : List ℚ)
    (hs : n ≤ (lib.sum_result p1 p2).length) (hm : n ≤ (lib.mult_result p1 p2).length)
    (hc : n ≤ (lib.scalar_result p1 2).length)
    (ha : n ≤ (lib.add_plain_result p1 p2).length) :
    (ckksBody lib n p1 p2).halt =
      (ckksVerification n p1 p2 2 (lib.sum_result p1 p2) (lib.mult_result p1 p2)
        (lib.scalar_result p1 2) (lib.add_plain_result p1 p2)).halt ∧
      ∃ before, (ckksBody lib n p1 p2).events = before ++
        (ckksVerification n p1 p2 2 (lib.sum_result p1 p2) (lib.mult_result p1 p2)
          (lib.scalar_result p1 2) (lib.add_plain_result p1 p2)).events := by
  unfold ckksBody
  simp only []
  repeat first
    | exact seq_ends_single _
    | refine seq_ends_cons _ _ _ (by
        simp [Run.andThen, libCall, hq, emit, print_ckks_info, printReals, after,
          forIndex_index _ _ n hs, forIndex_index _ _ n hm, forIndex_index _ _ n hc,
          forIndex_index _ _ n ha]) ?_

/-- C11: the end-to-end real scenario, over exact arithmetic.  With
`vector_size` 2, `plaintext1 = [1.5, 2.5]` and `plaintext2 = [0.5, 1.0]` the
harness computes the expected vectors `[2.0, 3.5]`, `[0.75, 2.5]`,
`[3.0, 5.0]` and `[2.0, 3.5]`; and with a library whose calls do not throw
and whose four decoded vectors are within 0.01 of these values in their first
2 slots, `demonstrateCKKS` runs to its end and the last lines it logs are the
four PASS verdicts followed by the all-tests-passing banner. -/
theorem ckks_end_to_end (extractDouble : List Char → Option (ℚ × List Char))
    (lib : CKKSLibrary) (stdin : List Line)
    (hv : (ckksInput extractDouble stdin).vector_size = 2)
    (hp1 : (ckksInput extractDouble stdin).plaintext1 = [3 / 2, 5 / 2])
    (hp2 : (ckksInput extractDouble stdin).plaintext2 = [1 / 2, 1])
    (hq : ∀ c, lib.throws c = none)
    (hs : WithinTolerance [2, 7 / 2] (lib.sum_result [3 / 2, 5 / 2] [1 / 2, 1]) (1 / 100))
    (hm : WithinTolerance [3 / 4, 5 / 2] (lib.mult_result [3 / 2, 5 / 2] [1 / 2, 1]) (1 / 100))
    (hc : WithinTolerance [3, 5] (lib.scalar_result [3 / 2, 5 / 2] 2) (1 / 100))
    (ha : WithinTolerance [2, 7 / 2] (lib.add_plain_result [3 / 2, 5 / 2] [1 / 2, 1])
      (1 / 100)) :
    ckksExpected 2 [3 / 2, 5 / 2] [1 / 2, 1] 2 =
      .ok ⟨[2, 7 / 2], [3 / 4, 5 / 2], [3, 5], [2, 7 / 2]⟩ ∧
    (demonstrateCKKS extractDouble lib stdin).halt = none ∧
    ∃ before,
      (demonstrateCKKS extractDouble lib stdin).events =
        before ++
          (.log "\n4. Verification:" :: .log "   Addition verification: PASS" ::
            .log "   Multiplication verification: PASS" ::
            .log "   Scalar multiplication verification: PASS" ::
            .log "   Plaintext addition verification: PASS" :: ckksBanner) := by
  have he : ckksExpected 2 [3 / 2, 5 / 2] [1 / 2, 1] 2 =
      .ok ⟨[2, 7 / 2], [3 / 4, 5 / 2], [3, 5], [2, 7 / 2]⟩ := by
    rw [ckksExpected_ok 2 [3 / 2, 5 / 2] [1 / 2, 1] 2 rfl rfl]
    simp [List.range_succ]
    norm_num
  have hver := ckksVerification_pass he hs hm hc ha
  have hrun := ckksBody_runs lib hq 2 [3 / 2, 5 / 2] [1 / 2, 1] hs.1 hm.1 hc.1 ha.1
  rw [hver] at hrun
  obtain ⟨hhalt, before, hev⟩ := hrun
  refine ⟨he, ?_, ?_⟩
  · unfold demonstrateCKKS
    simp only [hv, hp1, hp2]
    rw [andThen_of_halt_none rfl]
    exact hhalt
  · unfold demonstrateCKKS
    simp only [hv, hp1, hp2]
    rw [andThen_of_halt_none rfl, hev]
    refine ⟨(emit (ckksHeader ++ (ckksInput extractDouble stdin).out)).events ++ before, ?_⟩
    simp [ckksReport, passFail]

/-- Witness for C11: the input lines `2`, `1.5 2.5`, `0.5 1.0` read as plain
decimals, and a library whose every slot is off by 0.009. -/
theorem ckks_end_to_end_witness :
    (ckksInput extractDecimal ["2".toList, "1.5 2.5".toList, "0.5 1.0".toList]).plaintext1 =
        [3 / 2, 5 / 2] ∧
      (demonstrateCKKS extractDecimal (noisyRealLibrary (9 / 1000) 3)
        ["2".toList, "1.5 2.5".toList, "0.5 1.0".toList]).halt = none ∧
      ∃ before,
        (demonstrateCKKS extractDecimal (noisyRealLibrary (9 / 1000) 3)
          ["2".toList, "1.5 2.5".toList, "0.5 1.0".toList]).events =
          before ++
            (.log "\n4. Verification:" :: .log "   Addition verification: PASS" ::
              .log "   Multiplication verification: PASS" ::
              .log "   Scalar multiplication verification: PASS" ::
              .log "   Plaintext addition verification: PASS" :: ckksBanner) := by
  have hp1 : (ckksInput extractDecimal
      ["2".toList, "1.5 2.5".toList, "0.5 1.0".toList]).plaintext1 = [3 / 2, 5 / 2] := by
    decide!
  have hp2 : (ckksInput extractDecimal
      ["2".toList, "1.5 2.5".toList, "0.5 1.0".toList]).plaintext2 = [1 / 2, 1] := by
    decide!
  have hw : ∀ (e d : List ℚ), e.length = 2 → d.length = 5 →
      |e.getD 0 0 - d.getD 0 0| ≤ 1 / 100 → |e.getD 1 0 - d.getD 1 0| ≤ 1 / 100 →
      WithinTolerance e d (1 / 100) := by
    intro e d he hd h0 h1
    refine ⟨by omega, ?_⟩
    intro i hi
    rw [he] at hi
    interval_cases i
    · exact h0
    · exact h1
  have h := ckks_end_to_end extractDecimal (noisyRealLibrary (9 / 1000) 3)
    ["2".toList, "1.5 2.5".toList, "0.5 1.0".toList] (by decide) hp1 hp2 (fun _ => rfl)
    (hw _ _ rfl rfl (by norm_num [noisyRealLibrary, abs_le])
      (by norm_num [noisyRealLibrary, abs_le]))
    (hw _ _ rfl rfl (by norm_num [noisyRealLibrary, abs_le])
      (by norm_num [noisyRealLibrary, abs_le]))
    (hw _ _ rfl rfl (by norm_num [noisyRealLibrary, abs_le])
      (by norm_num [noisyRealLibrary, abs_le]))
    (hw _ _ rfl rfl (by norm_num [noisyRealLibrary, abs_le])
      (by norm_num [noisyRealLibrary, abs_le]))
  exact ⟨hp1, h.2.1, h.2.2⟩

/-! ## The resize before the comparison -/

theorem resize_resize {α : Type} [Zero α] (vec : List α) (n : Nat) :
    resize (resize vec n) n = resize vec n := by
  have hlen := resize_length vec n
  unfold resize at hlen ⊢
  rw [hlen, Nat.sub_self, List.replicate_zero, List.append_nil]
  exact List.take_of_length_le (le_of_eq hlen)

theorem verifyVectors_resize (expected result : List ℚ) (tolerance : ℚ) :
    ¬ expected.length > (resize result expected.length).length ∧
      verifyVectors expected (resize result expected.length) tolerance =
        verifyFrom 0 expected (resize result expected.length) tolerance := by
  have hlen : ¬ expected.length > (resize result expected.length).length := by
    rw [resize_length]; omega
  exact ⟨hlen, by unfold verifyVectors; rw [if_neg hlen]⟩

/-- C15, as stated, fails for a whole run: with `vector_size` 1 and a library
whose decoded vectors are empty, neither routine pads and compares; the loop
printing the result evaluates `sum_result[0]` on the empty vector first, and
the verification is never reached. -/
theorem short_result_read_before_resize :
    (demonstrateCKKS extractWhole emptyRealLibrary
        ["1".toList, "0".toList, "0".toList]).halt = some (.outOfRange "sum_result" 0 0) ∧
      .log "\n4. Verification:" ∉
        (demonstrateCKKS extractWhole emptyRealLibrary
          ["1".toList, "0".toList, "0".toList]).events ∧
      (demonstrateBFV emptyLibrary ["1".toList, "0".toList, "0".toList]).halt =
        some (.outOfRange "sum_result" 0 0) ∧
      .log "\n4. Verification:" ∉
        (demonstrateBFV emptyLibrary ["1".toList, "0".toList, "0".toList]).events := by
  decide

/-- C15 (amended): in the verification of `demonstrateCKKS` every result
vector is resized to the length of its expected vector before `verifyVectors`
is called, so the length guard of `verifyVectors` is false on every call the
program makes and the verdict is that of the comparison loop.  The
verification of `demonstrateCKKS` and of `demonstrateBFV` sees each decoded
vector only through its resized form: handed a vector shorter than
`vector_size`, it compares as if the missing slots held zeros, and does not
report the shortness as a failure. -/
theorem verification_compares_resized (n : Nat) :
    (∀ (expected result : List ℚ) (tolerance : ℚ),
      ¬ expected.length > (resize result expected.length).length ∧
      verifyVectors expected (resize result expected.length) tolerance =
        verifyFrom 0 expected (resize result expected.length) tolerance) ∧
    (∀ (p1 p2 : List ℚ) (scalar : ℚ) (s m c a : List ℚ), p1.length = n → p2.length = n →
      ckksVerification n p1 p2 scalar s m c a =
        ckksVerification n p1 p2 scalar (resize s n) (resize m n) (resize c n) (resize a n)) ∧
    (∀ (p1 p2 : List Int) (scalar : Int) (s m c : List Int), p1.length = n → p2.length = n →
      bfvVerification n p1 p2 scalar s m c =
        bfvVerification n p1 p2 scalar (resize s n) (resize m n) (resize c n)) ∧
    (∀ r : List ℚ, r.length ≤ n → resize r n = r ++ List.replicate (n - r.length) 0) ∧
    (∀ r : List Int, r.length ≤ n → resize r n = r ++ List.replicate (n - r.length) 0) := by
  refine ⟨verifyVectors_resize, ?_, ?_, ?_, ?_⟩
  · intro p1 p2 scalar s m c a h1 h2
    unfold ckksVerification
    rw [ckksExpected_ok n p1 p2 scalar h1 h2]
    simp only [after, List.length_map, List.length_range, resize_resize]
  · intro p1 p2 scalar s m c h1 h2
    rw [bfvVerification_ok (bfvExpected_ok n p1 p2 scalar h1 h2),
      bfvVerification_ok (bfvExpected_ok n p1 p2 scalar h1 h2)]
    simp only [bfvVerdicts, List.length_map, List.length_range, resize_resize]
  · intro r hr
    unfold resize
    rw [List.take_of_length_le hr]
  · intro r hr
    unfold resize
    rw [List.take_of_length_le hr]

/-- Witness for C15 (amended): handed empty decoded vectors for the plaintexts
`[0]` and `[0]`, the verification of `demonstrateBFV` compares `[0]` with
`[0]` three times and logs three PASS lines and the banner. -/
theorem verification_compares_resized_witness :
    bfvVerification 1 [0] [0] 2 [] [] [] =
      ⟨.log "\n4. Verification:" :: .log "   Addition verification: PASS" ::
        .log "   Multiplication verification: PASS" ::
        .log "   Scalar multiplication verification: PASS" :: bfvBanner, none⟩ ∧
      resize ([] : List Int) 1 = [0] := by
  have h := (verification_compares_resized 1).2.2.1 [0] [0] 2 [] [] [] rfl rfl
  exact ⟨h.trans (by decide), by decide⟩

/-! ## The calls of a run are an initial stretch of the program's calls -/

theorem within_emit (evs : List Ev) (h : evs.filterMap callOf = []) :
    (emit evs).CallsWithin [] := by
  simp [Run.CallsWithin, emit, Run.calls, h]

theorem within_libCall (throws : Call → Option String) (c : Call) :
    (libCall throws c).CallsWithin [c] := by
  simp [Run.CallsWithin, libCall, Run.calls, callOf]

theorem within_andThen {a b : Run} {cs ds : List Call} (ha : a.CallsWithin cs)
    (hb : b.CallsWithin ds) : (a.andThen b).CallsWithin (cs ++ ds) := by
  unfold Run.CallsWithin at *
  rw [calls_andThen]
  cases h : a.halt with
  | some x =>
    simp only [Run.andThen, h]
    refine ⟨?_, fun hn => by simp [h] at hn⟩
    simpa using ha.1.trans (List.prefix_append cs ds)
  | none =>
    simp only [Run.andThen, h, if_true]
    rw [ha.2 h]
    refine ⟨(List.prefix_append_right_inj cs).2 hb.1, fun hn => ?_⟩
    rw [hb.2 hn]

theorem within_after {β : Type} (x : Except Halt β) (k : β → Run)
    (h : ∀ b, x = .ok b → (k b).CallsWithin []) : (after x k).CallsWithin [] := by
  cases x with
  | error e => simp [after, Run.CallsWithin, Run.calls]
  | ok b => exact h b rfl

theorem seq_within_nil : (Run.seq []).CallsWithin [] := by
  simp [Run.seq, Run.CallsWithin, Run.calls]

theorem seq_within_call (r : Run) (rs : List Run) (c : Call) (ds : List Call)
    (hr : r.CallsWithin [c]) (hs : (Run.seq rs).CallsWithin ds) :
    (Run.seq (r :: rs)).CallsWithin (c :: ds) :=
  within_andThen hr hs

theorem seq_within_silent (r : Run) (rs : List Run) (ds : List Call)
    (hr : r.CallsWithin []) (hs : (Run.seq rs).CallsWithin ds) :
    (Run.seq (r :: rs)).CallsWithin ds :=
  within_andThen hr hs

theorem within_print_bfv_info (lib : BFVLibrary) (ctxt name : String) :
    (print_bfv_info lib ctxt name).CallsWithin [.invariant_noise_budget ctxt] :=
  within_andThen (within_emit _ (by simp [callOf])) (within_libCall _ _)

theorem within_print_ckks_info (lib : CKKSLibrary) (ctxt name : String) :
    (print_ckks_info lib ctxt name).CallsWithin [.chain_index ctxt] :=
  within_andThen (within_emit _ (by simp [callOf])) (within_libCall _ _)

theorem within_printResult (label name : String) (n : Nat) (result : List Int) :
    (printResult label name n result).CallsWithin [] :=
  within_andThen (within_emit _ (by simp [callOf]))
    (within_after _ _ fun _ _ => within_emit _ (by simp [callOf]))

theorem within_printReals (label name : String) (n : Nat) (result : List ℚ) :
    (printReals label name n result).CallsWithin [] :=
  within_andThen (within_emit _ (by simp [callOf]))
    (within_after _ _ fun _ _ => within_emit _ (by simp [callOf]))

theorem within_bfvVerification (n : Nat) (p1 p2 : List Int) (scalar : Int)
    (s m c : List Int) : (bfvVerification n p1 p2 scalar s m c).CallsWithin [] := by
  refine within_andThen (within_emit _ (by simp [callOf]))
    (within_after _ _ fun e _ => within_emit _ ?_)
  unfold bfvReport bfvBanner
  split <;> simp [callOf]

theorem verifyFrom_no_call (tolerance : ℚ) (expected : List ℚ) :
    ∀ (i : Nat) (actual : List ℚ) (r : Bool × List Ev),
      verifyFrom i expected actual tolerance = .ok r → r.2.filterMap callOf = [] := by
  induction expected with
  | nil =>
    intro i actual r h
    simp only [verifyFrom, Except.ok.injEq] at h
    subst h
    rfl
  | cons e es ih =>
    intro i actual r h
    cases actual with
    | nil => simp [verifyFrom] at h
    | cons a as =>
      unfold verifyFrom at h
      split at h
      · simp only [Except.ok.injEq] at h
        subst h
        simp [callOf]
      · exact ih (i + 1) as r h

theorem within_verifyCall (expected actual : List ℚ) (k : Bool → Run)
    (hk : ∀ b, (k b).CallsWithin []) : (verifyCall expected actual k).CallsWithin [] := by
  refine within_after _ _ fun r hr => within_andThen (within_emit _ ?_) (hk r.1)
  unfold verifyVectors at hr
  split at hr
  · simp only [Except.ok.injEq] at hr
    subst hr
    rfl
  · exact verifyFrom_no_call _ _ _ _ r hr

theorem within_ckksVerification (n : Nat) (p1 p2 : List ℚ) (scalar : ℚ)
    (s m c a : List ℚ) : (ckksVerification n p1 p2 scalar s m c a).CallsWithin [] := by
  refine within_andThen (within_emit _ (by simp [callOf])) (within_after _ _ fun e _ => ?_)
  refine within_verifyCall _ _ _ fun b1 => within_verifyCall _ _ _ fun b2 =>
    within_verifyCall _ _ _ fun b3 => within_verifyCall _ _ _ fun b4 => within_emit _ ?_
  unfold ckksReport ckksBanner
  split <;> simp [callOf]

/-- Whatever the library does, the calls `demonstrateBFV` makes after reading
its input are an initial stretch of `bfvCalls`, and all of them when it runs
to its end. -/
theorem bfvBody_calls_within (lib : BFVLibrary) (n : Nat) (p1 p2 : List Int) :
    (bfvBody lib n p1 p2).CallsWithin (bfvCalls p1 p2) := by
  unfold bfvBody bfvCalls
  simp only []
  repeat first
    | exact seq_within_nil
    | refine seq_within_call _ _ _ _ (by
        first
          | exact within_libCall _ _
          | exact within_print_bfv_info _ _ _) ?_
    | refine seq_within_silent _ _ _ (by
        first
          | exact within_emit _ (by simp [callOf])
          | exact within_printResult _ _ _ _
          | exact within_bfvVerification _ _ _ _ _ _ _
          | exact within_after _ _ fun _ _ => within_emit _ (by simp [callOf])) ?_

/-- Whatever the library does, the calls `demonstrateCKKS` makes after reading
its input are an initial stretch of `ckksCalls`, and all of them when it runs
to its end. -/
theorem ckksBody_calls_within (lib : CKKSLibrary) (n : Nat) (p1 p2 : List ℚ) :
    (ckksBody lib n p1 p2).CallsWithin (ckksCalls p1 p2) := by
  unfold ckksBody ckksCalls
  simp only []
  repeat first
    | exact seq_within_nil
    | refine seq_within_call _ _ _ _ (by
        first
          | exact within_libCall _ _
          | exact within_print_ckks_info _ _ _) ?_
    | refine seq_within_silent _ _ _ (by
        first
          | exact within_emit _ (by simp [callOf])
          | exact within_printReals _ _ _ _
          | exact within_ckksVerification _ _ _ _ _ _ _ _) ?_

theorem demonstrateBFV_calls_within (lib : BFVLibrary) (stdin : List Line) :
    (demonstrateBFV lib stdin).CallsWithin
      (bfvCalls (bfvInput stdin).plaintext1 (bfvInput stdin).plaintext2) :=
  within_andThen (within_emit _ (bfvInput_no_call stdin)) (bfvBody_calls_within lib _ _ _)

theorem demonstrateCKKS_calls_within (extractDouble : List Char → Option (ℚ × List Char))
    (lib : CKKSLibrary) (stdin : List Line) :
    (demonstrateCKKS extractDouble lib stdin).CallsWithin
      (ckksCalls (ckksInput extractDouble stdin).plaintext1
        (ckksInput extractDouble stdin).plaintext2) :=
  within_andThen (within_emit _ (ckksInput_no_call extractDouble stdin))
    (ckksBody_calls_within lib _ _ _)

/-- A rule kept by a sequence of calls is kept by every initial stretch of
it. -/
theorem checkCalls_prefix {σ : Type} (step : σ → Call → Option σ) (l full : List Call)
    (hl : l <+: full) :
    ∀ (st : σ) (fin : σ), checkCalls step st full = some fin →
      ∃ mid, checkCalls step st l = some mid := by
  obtain ⟨t, rfl⟩ := hl
  induction l with
  | nil => intro st fin _; exact ⟨st, rfl⟩
  | cons c l ih =>
    intro st fin h
    simp only [List.cons_append, checkCalls] at h ⊢
    cases hs : step st c with
    | none => simp [hs] at h
    | some st1 =>
      simp only [hs] at h ⊢
      exact ih st1 fin h

theorem bfvCalls_followUp (p1 p2 : List Int) :
    checkCalls (followUp false) ⟨[], []⟩ (bfvCalls p1 p2) = some ⟨[], []⟩ := by
  rfl

theorem ckksCalls_followUp (p1 p2 : List ℚ) :
    checkCalls (followUp true) ⟨[], []⟩ (ckksCalls p1 p2) = some ⟨[], []⟩ := by
  rfl

/-- C12: relinearization and rescaling follow every multiplication before
further operations.  The library calls of `demonstrateBFV` and of
`demonstrateCKKS` are, whatever the input and the library, an initial stretch
of the program's sequence of calls (all of it when the routine runs to its
end).  In that sequence `multiply` on `ctxt_mult` is followed by
`relinearize_inplace` (in `demonstrateCKKS` then by `rescale_to_next_inplace`)
before `decrypt`, and `multiply_plain` into `ctxt_scalar` is, in
`demonstrateCKKS`, followed by `rescale_to_next_inplace` before `decrypt`,
with only the diagnostic of `print_bfv_info` / `print_ckks_info` in between;
and no call decrypts, or takes as operand, a ciphertext that still owes one
of these steps. -/
theorem relinearize_rescale_follow_multiply (extractDouble : List Char → Option (ℚ × List Char))
    (libB : BFVLibrary) (libC : CKKSLibrary) (stdin : List Line) :
    ((demonstrateBFV libB stdin).calls <+:
        bfvCalls (bfvInput stdin).plaintext1 (bfvInput stdin).plaintext2 ∧
      ((demonstrateBFV libB stdin).halt = none →
        (demonstrateBFV libB stdin).calls =
          bfvCalls (bfvInput stdin).plaintext1 (bfvInput stdin).plaintext2) ∧
      (∃ owed, checkCalls (followUp false) ⟨[], []⟩ (demonstrateBFV libB stdin).calls =
        some owed) ∧
      checkCalls (followUp false) ⟨[], []⟩
        (bfvCalls (bfvInput stdin).plaintext1 (bfvInput stdin).plaintext2) = some ⟨[], []⟩ ∧
      ∃ pre post, bfvCalls (bfvInput stdin).plaintext1 (bfvInput stdin).plaintext2 =
        pre ++ [.multiply "ctxt1" "ctxt2" "ctxt_mult", .invariant_noise_budget "ctxt_mult",
          .relinearize_inplace "ctxt_mult", .invariant_noise_budget "ctxt_mult",
          .decrypt "ctxt_mult" "ptxt_mult"] ++ post) ∧
    ((demonstrateCKKS extractDouble libC stdin).calls <+:
        ckksCalls (ckksInput extractDouble stdin).plaintext1
          (ckksInput extractDouble stdin).plaintext2 ∧
      ((demonstrateCKKS extractDouble libC stdin).halt = none →
        (demonstrateCKKS extractDouble libC stdin).calls =
          ckksCalls (ckksInput extractDouble stdin).plaintext1
            (ckksInput extractDouble stdin).plaintext2) ∧
      (∃ owed, checkCalls (followUp true) ⟨[], []⟩
        (demonstrateCKKS extractDouble libC stdin).calls = some owed) ∧
      checkCalls (followUp true) ⟨[], []⟩
        (ckksCalls (ckksInput extractDouble stdin).plaintext1
          (ckksInput extractDouble stdin).plaintext2) = some ⟨[], []⟩ ∧
      ∃ pre mid post, ckksCalls (ckksInput extractDouble stdin).plaintext1
          (ckksInput extractDouble stdin).plaintext2 =
        pre ++ [.multiply "ctxt1" "ctxt2" "ctxt_mult", .chain_index "ctxt_mult",
          .relinearize_inplace "ctxt_mult", .chain_index "ctxt_mult",
          .rescale_to_next_inplace "ctxt_mult", .chain_index "ctxt_mult",
          .decrypt "ctxt_mult" "ptxt_mult"] ++ mid ++
          [.multiply_plain "ctxt1" "ptxt_scalar" "ctxt_scalar",
            .rescale_to_next_inplace "ctxt_scalar",
            .decrypt "ctxt_scalar" "ptxt_scalar_res"] ++ post) := by
  have hB := demonstrateBFV_calls_within libB stdin
  have hC := demonstrateCKKS_calls_within extractDouble libC stdin
  refine ⟨⟨hB.1, hB.2, ?_, bfvCalls_followUp _ _, ?_⟩, ⟨hC.1, hC.2, ?_, ckksCalls_followUp _ _, ?_⟩⟩
  · exact checkCalls_prefix _ _ _ hB.1 _ _ (bfvCalls_followUp _ _)
  · exact ⟨(bfvCalls (bfvInput stdin).plaintext1 (bfvInput stdin).plaintext2).take 11,
      (bfvCalls (bfvInput stdin).plaintext1 (bfvInput stdin).plaintext2).drop 16, rfl⟩
  · exact checkCalls_prefix _ _ _ hC.1 _ _ (ckksCalls_followUp _ _)
  · exact ⟨(ckksCalls (ckksInput extractDouble stdin).plaintext1
        (ckksInput extractDouble stdin).plaintext2).take 10,
      [.decode "ptxt_mult" "mult_result", .encode_scalar 2 "ctxt1" "ptxt_scalar"],
      (ckksCalls (ckksInput extractDouble stdin).plaintext1
        (ckksInput extractDouble stdin).plaintext2).drop 22, rfl⟩

/-- Witness for C12: the run on `4`, `1 2 3 4`, `5 6 7 8` with a library that
does not throw makes all the calls of the program's sequence. -/
theorem relinearize_rescale_follow_multiply_witness :
    (demonstrateBFV (quietLibrary 8) ["4".toList, "1 2 3 4".toList, "5 6 7 8".toList]).calls =
        bfvCalls [1, 2, 3, 4] [5, 6, 7, 8] ∧
      checkCalls (followUp false) ⟨[], []⟩
        (demonstrateBFV (quietLibrary 8)
          ["4".toList, "1 2 3 4".toList, "5 6 7 8".toList]).calls = some ⟨[], []⟩ := by
  have h := (relinearize_rescale_follow_multiply extractWhole (quietLibrary 8)
    (exactRealLibrary 8) ["4".toList, "1 2 3 4".toList, "5 6 7 8".toList]).1
  have hc := h.2.1 (by decide)
  have hp : (bfvCalls (bfvInput ["4".toList, "1 2 3 4".toList, "5 6 7 8".toList]).plaintext1
      (bfvInput ["4".toList, "1 2 3 4".toList, "5 6 7 8".toList]).plaintext2) =
      bfvCalls [1, 2, 3, 4] [5, 6, 7, 8] := by decide
  refine ⟨hc.trans hp, ?_⟩
  rw [hc]
  exact h.2.2.2.1

/-- The metadata after all the calls of `demonstrateCKKS`, newest first, for
top level `top` and dropped moduli `dropped`. -/
theorem ckksCalls_evaluatorRule (p1 p2 : List ℚ) (top : Nat) (dropped : Nat → ℚ)
    (htop : 0 < top) :
    ∃ st, checkCalls (evaluatorRule top dropped) [] (ckksCalls p1 p2) = some st ∧
      metadataOf st "ctxt1" = some ⟨2, top, ckks_scale⟩ ∧
      metadataOf st "ctxt2" = some ⟨2, top, ckks_scale⟩ ∧
      metadataOf st "ptxt2" = some ⟨1, top, ckks_scale⟩ ∧
      metadataOf st "ptxt_scalar" = some ⟨1, top, ckks_scale⟩ ∧
      metadataOf st "ctxt_mult" = some ⟨2, top - 1, ckks_scale * ckks_scale / dropped top⟩ ∧
      metadataOf st "ctxt_scalar" =
        some ⟨2, top - 1, ckks_scale * ckks_scale / dropped top⟩ := by
  simp [checkCalls, evaluatorRule, metadataOf, ckksCalls, htop, List.find?]

theorem ckksCalls_writes (p1 p2 : List ℚ) :
    (ckksCalls p1 p2).filter (fun c => written c == some "ctxt1") =
        [.encrypt "ptxt1" "ctxt1"] ∧
      (ckksCalls p1 p2).filter (fun c => written c == some "ctxt2") =
        [.encrypt "ptxt2" "ctxt2"] ∧
      (ckksCalls p1 p2).filterMap rescaled = ["ctxt_mult", "ctxt_scalar"] :=
  ⟨rfl, rfl, rfl⟩

/-- C13: every evaluator call in `demonstrateCKKS` meets its level/scale
precondition, for every input.  For every text conversion, library and input,
and every chain whose top level `top` is above 0 (whatever the moduli
`dropped`), the calls made keep the evaluator rule: `add` and `add_plain`
combine operands of equal level and equal scale, `multiply` and
`multiply_plain` operands of equal level, `relinearize_inplace` is applied at
size 3 and `rescale_to_next_inplace` at a level above 0.  The only call
writing `ctxt1` (`ctxt2`) is its encryption, the ciphertexts rescaled are at
most `ctxt_mult` and `ctxt_scalar`, once each; and after all the calls `ctxt1`
and `ctxt2` are at size 2, level `top`, scale 2^40, `ptxt2` and the scalar
plaintext at level `top`, scale 2^40, and both products at level `top - 1`. -/
theorem ckks_calls_meet_preconditions (extractDouble : List Char → Option (ℚ × List Char))
    (lib : CKKSLibrary) (stdin : List Line) (top : Nat) (dropped : Nat → ℚ) (htop : 0 < top) :
    (∃ st, checkCalls (evaluatorRule top dropped) []
        (demonstrateCKKS extractDouble lib stdin).calls = some st) ∧
      (demonstrateCKKS extractDouble lib stdin).calls.filter
          (fun c => written c == some "ctxt1") <+: [.encrypt "ptxt1" "ctxt1"] ∧
      (demonstrateCKKS extractDouble lib stdin).calls.filter
          (fun c => written c == some "ctxt2") <+: [.encrypt "ptxt2" "ctxt2"] ∧
      (demonstrateCKKS extractDouble lib stdin).calls.filterMap rescaled <+:
          ["ctxt_mult", "ctxt_scalar"] ∧
      ∃ st, checkCalls (evaluatorRule top dropped) []
          (ckksCalls (ckksInput extractDouble stdin).plaintext1
            (ckksInput extractDouble stdin).plaintext2) = some st ∧
        metadataOf st "ctxt1" = some ⟨2, top, ckks_scale⟩ ∧
        metadataOf st "ctxt2" = some ⟨2, top, ckks_scale⟩ ∧
        metadataOf st "ptxt2" = some ⟨1, top, ckks_scale⟩ ∧
        metadataOf st "ptxt_scalar" = some ⟨1, top, ckks_scale⟩ ∧
        metadataOf st "ctxt_mult" =
          some ⟨2, top - 1, ckks_scale * ckks_scale / dropped top⟩ ∧
        metadataOf st "ctxt_scalar" =
          some ⟨2, top - 1, ckks_scale * ckks_scale / dropped top⟩ := by
  have hC := (demonstrateCKKS_calls_within extractDouble lib stdin).1
  have hfull := ckksCalls_evaluatorRule (ckksInput extractDouble stdin).plaintext1
    (ckksInput extractDouble stdin).plaintext2 top dropped htop
  have hw := ckksCalls_writes (ckksInput extractDouble stdin).plaintext1
    (ckksInput extractDouble stdin).plaintext2
  refine ⟨?_, ?_, ?_, ?_, hfull⟩
  · obtain ⟨st, hst, _⟩ := hfull
    exact checkCalls_prefix _ _ _ hC _ _ hst
  · have h := List.IsPrefix.filter (fun c => written c == some "ctxt1") hC
    rwa [hw.1] at h
  · have h := List.IsPrefix.filter (fun c => written c == some "ctxt2") hC
    rwa [hw.2.1] at h
  · have h := List.IsPrefix.filterMap rescaled hC
    rwa [hw.2.2] at h

/-- Witness for C13: the chain of `create_ckks_parms` (top level 2) with
moduli of 2^40, on the run for `2`, `1.5 2.5`, `0.5 1.0`. -/
theorem ckks_calls_meet_preconditions_witness :
    0 < ckksTopLevel ∧
      ∃ st, checkCalls (evaluatorRule ckksTopLevel (fun _ => ckks_scale)) []
        (demonstrateCKKS extractDecimal (noisyRealLibrary (9 / 1000) 3)
          ["2".toList, "1.5 2.5".toList, "0.5 1.0".toList]).calls = some st :=
  ⟨by decide, (ckks_calls_meet_preconditions extractDecimal (noisyRealLibrary (9 / 1000) 3)
    ["2".toList, "1.5 2.5".toList, "0.5 1.0".toList] ckksTopLevel (fun _ => ckks_scale)
    (by decide)).1⟩

end SEALWorking
